import Mathlib

/-!
Shallow embedding of src/fov.js (tile-based field-of-vision by recursive
shadowcasting, translated from libfov) and verification of its specification.

Modelling choices, all derived from the source:
* The grid/map is an external collaborator consulted only through the
  user-supplied opacity predicate, so the map argument is folded into the
  predicate: a pure function from tile coordinates to Bool.
* The two callbacks are modelled by an event trace: each call of
  settings.opaque produces a query event and each call of settings.apply
  an apply event, in emission order.  Two ghost events (call, upd) record
  the slope-interval arguments of each fov_octant invocation and each
  in-loop start_slope update; they correspond to no callback.
* All numbers that are floating point in JavaScript (slopes, the epsilon
  1e-8) are exact rationals here.  parseInt on a finite number truncates
  toward zero, Math.floor is the floor.  Angles given to beam/beam2 are
  radians; since the source only ever multiplies them by 4/pi resp. 2/pi
  and compares them with 0 and 2*pi, they are passed here as exact rational
  multiples of pi, which makes that arithmetic exact.
* Math.sqrt composed with parseInt on a natural number is Nat.sqrt.
* Recursion in fov_octant strictly increases the column dx and stops as
  soon as dx exceeds the radius, so a fuel of radius + 2 is always enough;
  the fuel-out branch is unreachable from the public entry points.
-/

namespace Fovjs

/-- Shape selector: FOV_SHAPE_CIRCLE / FOV_SHAPE_OCTAGON from src/fov.js
(the precalculate variant is untranslated in the source and excluded). -/
inductive Shape
  | circle
  | octagon
deriving DecidableEq, Repr

/-- The settings record of src/fov.js.  isOpaque is settings.opaque with the
map folded in; opaqApply is settings.opaque_apply. -/
structure Settings where
  shape : Shape
  isOpaque : Int → Int → Bool
  opaqApply : Bool

/-- Trace events.  query x y b: settings.opaque returned b on tile (x,y);
apply x y: settings.apply was invoked on tile (x,y).  call and upd are ghost
markers: call dx s e records entry into fov_octant with those column/slope
arguments, upd s e records the in-loop start_slope update (line 119 of
src/fov.js) together with the unchanged end_slope. -/
inductive Event
  | query (x y : Int) (b : Bool)
  | apply (x y : Int)
  | call (dx : Nat) (s e : Rat)
  | upd (s e : Rat)
deriving DecidableEq, Repr

/-- FLT_EPSILON = 1e-8 (src/fov.js line 37). -/
def FLT_EPSILON : Rat := 1 / 100000000

/-- JavaScript parseInt applied to a finite number: truncation toward zero. -/
def jsTrunc (x : Rat) : Int := if 0 ≤ x then ⌊x⌋ else -⌊-x⌋

/-- fov_slope (src/fov.js lines 46-52). -/
def fovSlope (dx dy : Rat) : Rat :=
  if dx ≤ -FLT_EPSILON ∨ FLT_EPSILON ≤ dx then dy / dx else 0

/-- The shape switch of fov_octant (src/fov.js lines 79-92): maximal row
offset h for column dx.  All reachable uses have dx ≤ radius, where
parseInt(Math.sqrt(radius*radius - dx*dx)) is Nat.sqrt of the (truncated)
difference. -/
def shapeH (sh : Shape) (radius dx : Nat) : Nat :=
  match sh with
  | Shape.circle => Nat.sqrt (radius * radius - dx * dx)
  | Shape.octagon => (radius - dx) * 2

/-- The per-octant context: settings, source, radius and the octant
descriptor (signx, signy, rx) of fov_octant. -/
structure Ctx where
  st : Settings
  sx : Int
  sy : Int
  radius : Nat
  signx : Int
  signy : Int
  rx : Bool

/-- The tile p examined in the dy loop (src/fov.js lines 72-73 and 102):
p[rx] = source[rx] + signx*dx and p[ry] = source[ry] + signy*dy. -/
def tileOf (c : Ctx) (dx : Nat) (dy : Int) : Int × Int :=
  if c.rx then (c.sx + c.signy * dy, c.sy + c.signx * (dx : Int))
  else (c.sx + c.signx * (dx : Int), c.sy + c.signy * dy)

/-- The integers a, a+1, ..., b (empty when b < a): the range of the dy loop. -/
def rowRange (a b : Int) : List Int :=
  (List.range (b + 1 - a).toNat).map (fun i : Nat => a + (i : Int))

/-- The state evolution of the dy loop of fov_octant (src/fov.js lines
101-123): the values of (prev_blocked, start_slope) after scanning the given
rows from the given state.  The loop state does not depend on the recursive
shadow-split calls, so it is computed separately from the emitted events. -/
def scanState (c : Ctx) (dx : Nat) : List Int → Int → Rat → Int × Rat
  | [], prev, s => (prev, s)
  | dy :: rest, prev, s =>
    let p := tileOf c dx dy
    if c.st.isOpaque p.1 p.2 then
      scanState c dx rest 1 s
    else
      let s2 := if prev == 1 then fovSlope ((dx : Rat) - 1/2) ((dy : Rat) - 1/2) else s
      scanState c dx rest 0 s2

/-- The events emitted by the dy loop of fov_octant (src/fov.js lines
101-123).  split is the recursive shadow-split call of line 109, supplied by
the caller; e is the (loop-constant) end_slope, used by the ghost upd
event. -/
def scanRows (c : Ctx) (dx : Nat) (e : Rat) (split : Rat → Rat → List Event) :
    List Int → Int → Rat → List Event
  | [], _, _ => []
  | dy :: rest, prev, s =>
    let p := tileOf c dx dy
    if c.st.isOpaque p.1 p.2 then
      let evA : List Event :=
        if c.st.opaqApply && (c.signy == 1 || 0 < dy) then [Event.apply p.1 p.2] else []
      let evS : List Event :=
        if prev == 0 then split s (fovSlope ((dx : Rat) + 1/2) ((dy : Rat) - 1/2)) else []
      Event.query p.1 p.2 true :: (evA ++ (evS ++ scanRows c dx e split rest 1 s))
    else
      let evA : List Event :=
        if c.signy == 1 || 0 < dy then [Event.apply p.1 p.2] else []
      let s2 := if prev == 1 then fovSlope ((dx : Rat) - 1/2) ((dy : Rat) - 1/2) else s
      let evU : List Event := if prev == 1 then [Event.upd s2 e] else []
      Event.query p.1 p.2 false :: (evA ++ (evU ++ scanRows c dx e split rest 0 s2))

/-- The lower end dy0 of the dy loop (src/fov.js line 69). -/
def rowLo (dx : Nat) (s : Rat) : Int := jsTrunc (1/2 + (dx : Rat) * s)

/-- The value of dy1 after the diagonal-exclusion decrement but before the
shape clipping (src/fov.js lines 70 and 75-77). -/
def rowHiPre (c : Ctx) (dx : Nat) (e : Rat) : Int :=
  if c.rx = true ∧ jsTrunc (1/2 + (dx : Rat) * e) = (dx : Int) then
    jsTrunc (1/2 + (dx : Rat) * e) - 1
  else jsTrunc (1/2 + (dx : Rat) * e)

/-- The upper end dy1 of the dy loop after the diagonal-exclusion decrement
and the shape clipping (src/fov.js lines 70, 75-77 and 94-99). -/
def rowHi (c : Ctx) (dx : Nat) (e : Rat) : Int :=
  if (shapeH c.st.shape c.radius dx : Int) < |rowHiPre c dx e| then
    (shapeH c.st.shape c.radius dx : Int)
  else rowHiPre c dx e

/-- Whether fov_octant returns before the dy loop because the shape boundary
has collapsed (src/fov.js lines 94-97). -/
abbrev hCollapsed (c : Ctx) (dx : Nat) (e : Rat) : Prop :=
  (shapeH c.st.shape c.radius dx : Int) < |rowHiPre c dx e| ∧
    shapeH c.st.shape c.radius dx = 0

/-- The body of fov_octant after the range guard, for one column dx, with
rec standing for the recursive calls (lines 109 and 126 of src/fov.js). -/
def octColumn (c : Ctx) (rec : Nat → Rat → Rat → List Event)
    (dx : Nat) (s e : Rat) : List Event :=
  if hCollapsed c dx e then []
  else
    let rows := rowRange (rowLo dx s) (rowHi c dx e)
    let fin := scanState c dx rows (-1) s
    scanRows c dx e (fun s' e' => rec (dx + 1) s' e') rows (-1) s ++
      (if fin.1 == 0 then rec (dx + 1) fin.2 e else [])

/-- fov_octant (src/fov.js lines 54-128), with explicit fuel.  A ghost call
event records each invocation.  Note the source checks the radius only when
the incoming dx is nonzero (the dx == 0 remap skips the range check). -/
def go (c : Ctx) : Nat → Nat → Rat → Rat → List Event
  | 0, _, _, _ => []
  | Nat.succ fuel, dxArg, start, e =>
    Event.call dxArg start e ::
    (if dxArg = 0 ∨ dxArg ≤ c.radius then
      octColumn c (go c fuel) (if dxArg = 0 then 1 else dxArg) start e
    else [])

/-- fov_octant as invoked by the drivers: fuel radius + 2 always suffices. -/
def fovOctant (c : Ctx) (dx : Nat) (s e : Rat) : List Event :=
  go c (c.radius + 2) dx s e

/-- _fov_circle (src/fov.js lines 130-140): all 8 octants with interval [0,1]. -/
def fovCircleAux (st : Settings) (sx sy : Int) (radius : Nat) : List Event :=
  fovOctant ⟨st, sx, sy, radius, 1, 1, false⟩ 1 0 1 ++
  fovOctant ⟨st, sx, sy, radius, 1, 1, true⟩ 1 0 1 ++
  fovOctant ⟨st, sx, sy, radius, 1, -1, false⟩ 1 0 1 ++
  fovOctant ⟨st, sx, sy, radius, 1, -1, true⟩ 1 0 1 ++
  fovOctant ⟨st, sx, sy, radius, -1, 1, false⟩ 1 0 1 ++
  fovOctant ⟨st, sx, sy, radius, -1, 1, true⟩ 1 0 1 ++
  fovOctant ⟨st, sx, sy, radius, -1, -1, false⟩ 1 0 1 ++
  fovOctant ⟨st, sx, sy, radius, -1, -1, true⟩ 1 0 1

/-- fov.circle (src/fov.js lines 151-158). -/
def fovCircle (st : Settings) (sx sy : Int) (radius : Nat) : List Event :=
  fovCircleAux st sx sy radius

/-- betweenf (src/fov.js lines 163-171): clamp x into [a,b] modulo epsilon. -/
def betweenf (x a b : Rat) : Rat :=
  if x - a < FLT_EPSILON then a
  else if FLT_EPSILON < x - b then b
  else x

/-- An octant-descriptor triple as used by fov_beam: (signx, signy, rx). -/
abbrev OctDesc := Int × Int × Bool

/-- fov_octant2 (src/fov.js lines 173-176). -/
def fovOctant2 (st : Settings) (sx sy : Int) (radius : Nat)
    (p q : OctDesc) (dx : Nat) (s e : Rat) : List Event :=
  fovOctant ⟨st, sx, sy, radius, p.1, p.2.1, p.2.2⟩ dx s e ++
  fovOctant ⟨st, sx, sy, radius, q.1, q.2.1, q.2.2⟩ dx s e

/-- BEAM_DIRECTION (src/fov.js lines 179-196). -/
def beamDirection (st : Settings) (sx sy : Int) (radius : Nat)
    (direction : String) (a : Rat) (d : String)
    (p1 p2 p3 p4 p5 p6 p7 p8 : OctDesc) : List Event :=
  if direction = d then
    fovOctant2 st sx sy radius p1 p2 1 0 (betweenf a 0 1) ++
    ((if FLT_EPSILON < a - 1 then
      fovOctant2 st sx sy radius p3 p4 1 (betweenf (2 - a) 0 1) 1 else []) ++
    ((if FLT_EPSILON < a - 2 then
      fovOctant2 st sx sy radius p5 p6 1 0 (betweenf (a - 2) 0 1) else []) ++
    (if FLT_EPSILON < a - 3 then
      fovOctant2 st sx sy radius p7 p8 1 (betweenf (4 - a) 0 1) 1 else [])))
  else []

/-- BEAM_DIRECTION_DIAG (src/fov.js lines 198-215). -/
def beamDirectionDiag (st : Settings) (sx sy : Int) (radius : Nat)
    (direction : String) (a : Rat) (d : String)
    (p1 p2 p3 p4 p5 p6 p7 p8 : OctDesc) : List Event :=
  if direction = d then
    fovOctant2 st sx sy radius p1 p2 1 (betweenf (1 - a) 0 1) 1 ++
    ((if FLT_EPSILON < a - 1 then
      fovOctant2 st sx sy radius p3 p4 1 0 (betweenf (a - 1) 0 1) else []) ++
    ((if FLT_EPSILON < a - 2 then
      fovOctant2 st sx sy radius p5 p6 1 (betweenf (3 - a) 0 1) 1 else []) ++
    (if FLT_EPSILON < a - 3 then
      fovOctant2 st sx sy radius p7 p8 1 0 (betweenf (a - 3) 0 1) else [])))
  else []

/-- fov.beam (src/fov.js lines 217-249).  anglePi is the beam half-angle in
units of pi radians (angle = anglePi*pi); the source computes
a = angle*2/pi = anglePi*2 and compares angle against 0 and 2*pi. -/
def fovBeam (st : Settings) (sx sy : Int) (radius : Nat)
    (direction : String) (anglePi : Rat) : List Event :=
  if anglePi ≤ 0 then []
  else if 2 ≤ anglePi then fovCircleAux st sx sy radius
  else
    let a := anglePi * 2
    let ppn : OctDesc := (1, 1, false)
    let ppy : OctDesc := (1, 1, true)
    let pmn : OctDesc := (1, -1, false)
    let pmy : OctDesc := (1, -1, true)
    let mpn : OctDesc := (-1, 1, false)
    let mpy : OctDesc := (-1, 1, true)
    let mmn : OctDesc := (-1, -1, false)
    let mmy : OctDesc := (-1, -1, true)
    beamDirection st sx sy radius direction a "east" ppn pmn ppy mpy pmy mmy mpn mmn ++
    (beamDirection st sx sy radius direction a "west" mpn mmn pmy mmy ppy mpy ppn pmn ++
    (beamDirection st sx sy radius direction a "north" mpy mmy mmn pmn mpn ppn pmy ppy ++
    (beamDirection st sx sy radius direction a "south" pmy ppy mpn ppn mmn pmn mmy mpy ++
    (beamDirectionDiag st sx sy radius direction a "northeast" pmn mpy mmy ppn mmn ppy mpn pmy ++
    (beamDirectionDiag st sx sy radius direction a "northwest" mmn mmy mpn mpy pmy pmn ppy ppn ++
    (beamDirectionDiag st sx sy radius direction a "southeast" ppn ppy pmy pmn mpn mpy mmn mmy ++
    beamDirectionDiag st sx sy radius direction a "southwest" pmy mpn ppy mmn ppn mmy pmn mpy))))))

/-- The ANGLES table of fov_beam2 (src/fov.js line 251). -/
def ANGLES : List OctDesc :=
  [(1, 1, false), (1, 1, true), (1, -1, true), (-1, 1, false),
   (-1, -1, false), (-1, -1, true), (-1, 1, true), (1, -1, false)]

/-- JavaScript remainder x % m (sign of the dividend; m > 0 here). -/
def jsMod (x m : Rat) : Rat := x - m * (jsTrunc (x / m) : Int)

/-- The octant walk of fov_beam2 (src/fov.js lines 273-299).  The loop visits
at most 8 octant indices, so fuel 8 is always enough. -/
def beam2Loop (st : Settings) (sx sy : Int) (radius : Nat)
    (q1 q2 : Rat) (qf1 qf2 : Int) : Nat → Int → List Event
  | 0, _ => []
  | Nat.succ fuel, i =>
    let left : Rat := if i = qf1 then q1 - i else 0
    let right : Rat := if i = qf2 then q2 - i else 1
    let oct := ANGLES.getD i.toNat (1, 1, false)
    let evs :=
      if i % 2 = 0 then
        fovOctant ⟨st, sx, sy, radius, oct.1, oct.2.1, oct.2.2⟩ 1 left right
      else
        fovOctant ⟨st, sx, sy, radius, oct.1, oct.2.1, oct.2.2⟩ 1 (1 - right) (1 - left)
    evs ++ (if i = qf2 then [] else beam2Loop st sx sy radius q1 q2 qf1 qf2 fuel ((i + 1) % 8))

/-- fov.beam2 (src/fov.js lines 252-300).  anglePi and spreadPi are the
center angle and total spread in units of pi radians; the source computes
(angle +- spread/2)*4/pi = (anglePi +- spreadPi/2)*4 and compares spread
against 0 and 2*pi. -/
def fovBeam2 (st : Settings) (sx sy : Int) (radius : Nat)
    (anglePi spreadPi : Rat) : List Event :=
  if spreadPi ≤ 0 then []
  else if 2 ≤ spreadPi then fovCircleAux st sx sy radius
  else
    let q1 := jsMod (jsMod ((anglePi - spreadPi / 2) * 4) 8 + 8) 8
    let q2 := jsMod (jsMod ((anglePi + spreadPi / 2) * 4) 8 + 8) 8
    beam2Loop st sx sy radius q1 q2 ⌊q1⌋ ⌊q2⌋ 8 ⌊q1⌋

/-- The tiles on which settings.apply was invoked, in invocation order. -/
def applied (evs : List Event) : List (Int × Int) :=
  evs.filterMap (fun ev => match ev with
    | Event.apply x y => some (x, y)
    | _ => none)

/-- The tiles on which settings.opaque was consulted, in invocation order. -/
def queried (evs : List Event) : List (Int × Int) :=
  evs.filterMap (fun ev => match ev with
    | Event.query x y _ => some (x, y)
    | _ => none)


/-- The column distance dx that produced a tile, decoded from the octant
descriptor (inverse of tileOf in its first component, for signx in {1,-1}). -/
def colOf (c : Ctx) (t : Int × Int) : Int :=
  if c.rx then c.signx * (t.2 - c.sy) else c.signx * (t.1 - c.sx)

/-- The row offset dy that produced a tile, decoded from the octant
descriptor (inverse of tileOf in its second component, for signy in {1,-1}). -/
def rowOf (c : Ctx) (t : Int × Int) : Int :=
  if c.rx then c.signy * (t.1 - c.sx) else c.signy * (t.2 - c.sy)

/-- The slope components carried by a ghost event: both components of every
recorded fov_octant invocation and every recorded start_slope update lie in
the unit interval.  Callback events carry no slopes. -/
def slopesInUnit : Event → Prop
  | Event.call _ s e => 0 ≤ s ∧ s ≤ 1 ∧ 0 ≤ e ∧ e ≤ 1
  | Event.upd s e => 0 ≤ s ∧ s ≤ 1 ∧ 0 ≤ e ∧ e ≤ 1
  | _ => True

/-- The eight direction names recognized by fov.beam (src/fov.js lines
241-248). -/
def dirNames : List String :=
  ["east", "west", "north", "south", "northeast", "northwest", "southeast", "southwest"]

/-- Tiles applied while opaque_apply is false are never opaque (per event). -/
def applyClear (st : Settings) : Event → Prop
  | Event.apply x y => st.isOpaque x y = false
  | _ => True

/-- A single opaque tile at (0,3), OCTAGON shape, opaque_apply true. -/
def wallNorthApply : Settings := ⟨Shape.octagon, fun x y => x == 0 && y == 3, true⟩

/-- A single opaque tile at (2,1), OCTAGON shape, opaque_apply true. -/
def wallOctApply : Settings := ⟨Shape.octagon, fun x y => x == 2 && y == 1, true⟩

/-- A fully transparent grid, OCTAGON shape, opaque_apply false. -/
def transparentOct : Settings := ⟨Shape.octagon, fun _ _ => false, false⟩

/-- A single opaque tile at (2,1), OCTAGON shape, opaque_apply false. -/
def wallOct : Settings := ⟨Shape.octagon, fun x y => x == 2 && y == 1, false⟩

/-- Rounded row index at a column: parseInt(0.5 + col*q). -/
def rndI (col : Int) (q : Rat) : Int := jsTrunc (1/2 + (col : Rat) * q)

/-- The visited (queried) tiles of a trace, decoded to octant-local
(column, row) pairs. -/
def visCR (c : Ctx) (evs : List Event) : List (Int × Int) :=
  (queried evs).map (fun t => (colOf c t, rowOf c t))

/-- Temporal ordering of a decoded visit list: any two visits in trace order
are either in different columns or in strictly increasing rows. -/
abbrev visOrdered (l : List (Int × Int)) : Prop :=
  List.Pairwise (fun a b : Int × Int => a.1 ≠ b.1 ∨ a.2 < b.2) l

/-- Per-call specification of the octant scanner's visited tiles: every
visited column is at least dx, every visited row lies between the rounded
start and end rows of its column, and per column the visits come in strictly
increasing row order (hence no tile is visited twice). -/
def GoodGo (c : Ctx) (dxn : Nat) (s e : Rat) (evs : List Event) : Prop :=
  (∀ pr ∈ visCR c evs,
      (dxn : Int) ≤ pr.1 ∧ rndI pr.1 s ≤ pr.2 ∧ pr.2 ≤ rndI pr.1 e) ∧
  visOrdered (visCR c evs)


end Fovjs

namespace Fovjs

attribute [local semireducible] Rat.add Rat.mul Rat.sub Rat.inv

/-! ### Unfolding lemmas for the octant scanner -/

theorem go_zero (c : Ctx) (dxArg : Nat) (s e : Rat) : go c 0 dxArg s e = [] := rfl

theorem go_succ (c : Ctx) (fuel dxArg : Nat) (s e : Rat) (h : fuel ≠ 0) :
    go c fuel dxArg s e =
      Event.call dxArg s e ::
        (if dxArg = 0 ∨ dxArg ≤ c.radius then
          octColumn c (go c (fuel - 1)) (if dxArg = 0 then 1 else dxArg) s e
        else []) := by
  cases fuel with
  | zero => exact absurd rfl h
  | succ n => simp [go]

/-! ### C2: full-circle equivalence of beam2 with spread 2*pi -/

/-- C2: beam2 with spread exactly 2*pi invokes apply on exactly the same
tiles, in the same order, as circle, for every settings, grid, source,
radius and center angle: the spread >= 2*pi branch of fov_beam2 delegates to
_fov_circle, which is the whole body of fov.circle. -/
theorem c2_full_circle_equivalence (st : Settings) (sx sy : Int) (radius : Nat)
    (anglePi : Rat) :
    applied (fovBeam2 st sx sy radius anglePi 2) = applied (fovCircle st sx sy radius) := by
  unfold fovBeam2 fovCircle
  norm_num

/-! ### C7: shape ordering -/

/-- C7 counterexample: the raw shape boundary values compare the other way
round: at radius 3, dx 1 the OCTAGON value (3-1)*2 = 4 exceeds the CIRCLE
value floor(sqrt(9-1)) = 2. -/
theorem c7_counterexample : ¬ (shapeH Shape.octagon 3 1 ≤ shapeH Shape.circle 3 1) := by
  norm_num [shapeH]

/-- C7 amended: the boundary values clipped at the maximal scanned row of a
column (the dy loop never goes above dy = dx, since dy1 = parseInt(0.5+dx*e)
with e <= 1): for every radius and dx <= radius, the effective OCTAGON bound
min dx ((radius-dx)*2) is at most the effective CIRCLE bound
min dx (floor(sqrt(radius^2-dx^2))). -/
theorem c7_shape_ordering (radius dx : Nat) (hdx : dx ≤ radius) :
    min dx (shapeH Shape.octagon radius dx) ≤ min dx (shapeH Shape.circle radius dx) := by
  simp only [shapeH]
  rcases le_or_lt (3 * dx) (2 * radius) with h1 | h1
  · have h2 : dx * dx + dx * dx ≤ radius * radius := by nlinarith
    have hsq : dx ≤ Nat.sqrt (radius * radius - dx * dx) :=
      Nat.le_sqrt.mpr (Nat.le_sub_of_add_le h2)
    exact le_trans (Nat.min_le_left _ _) (le_min (le_refl _) hsq)
  · obtain ⟨k, hk⟩ : ∃ k, radius = dx + k := ⟨radius - dx, by omega⟩
    subst hk
    have hsub : dx + k - dx = k := by omega
    have hexp : (dx + k) * (dx + k) - dx * dx = 2 * dx * k + k * k := by
      have hh : (dx + k) * (dx + k) = dx * dx + (2 * dx * k + k * k) := by ring
      rw [hh, Nat.add_sub_cancel_left]
    have h3 : 3 * k ≤ 2 * dx := by omega
    have h4 : 3 * k * k ≤ 2 * dx * k := Nat.mul_le_mul_right k h3
    have hsqrt : k * 2 ≤ Nat.sqrt ((dx + k) * (dx + k) - dx * dx) := by
      rw [hexp]
      exact Nat.le_sqrt.mpr (by nlinarith)
    have hk2 : k * 2 ≤ dx := by omega
    rw [hsub]
    calc min dx (k * 2) = k * 2 := min_eq_right hk2
    _ ≤ min dx (Nat.sqrt ((dx + k) * (dx + k) - dx * dx)) := le_min hk2 hsqrt

/-- Witness for c7_shape_ordering at radius 5, dx 4. -/
theorem c7_shape_ordering_witness :
    (4 : Nat) ≤ 5 ∧
      min 4 (shapeH Shape.octagon 5 4) ≤ min 4 (shapeH Shape.circle 5 4) :=
  ⟨by norm_num, c7_shape_ordering 5 4 (by norm_num)⟩

/-! ### C10: wrapped beam2 collapse -/

/-- C10: the wrapped-beam collapse input exists: with a fully transparent
grid, radius 5, center angle 1.125*pi and spread 1.8*pi (0 < spread < 2*pi),
the two beam ends map to q1 = 0.9 and q2 = 0.1 in the same octant index 0,
the walk scans only the inverted interval (0.9, 0.1), whose row range is
empty, and beam2 invokes neither the opaque predicate nor apply. -/
theorem c10_wrapped_beam_collapse :
    queried (fovBeam2 transparentOct 0 0 5 (9/8) (9/5)) = [] ∧
    applied (fovBeam2 transparentOct 0 0 5 (9/8) (9/5)) = [] := by decide

/-! ### C6: within-octant callback order (counterexample part) -/

/-- C6 counterexample: with a single opaque tile at (2,1), radius 5, octagon
shape, source (0,0) and octant (+1,+1,rx=0) (so a tile's x coordinate is its
column distance), the octant pass applies (4,1) before (2,2): the callback
order is not monotone in column distance, because the shadow-split recursion
of line 109 of src/fov.js emits farther columns before the current column's
remaining rows. -/
theorem c6_counterexample :
    ¬ List.Pairwise (fun p q : Int × Int => p.1 ≤ q.1)
      (applied (fovOctant ⟨wallOct, 0, 0, 5, 1, 1, false⟩ 1 0 1)) := by decide

/-! ### C8: slope interval invariant (counterexample part) -/

/-- C8 counterexample: the invocation of fov_octant recorded by the first
ghost call event below is reachable from beam2 (wrapped beam, same input as
C10) and has start_slope 0.9 > end_slope 0.1, refuting start <= end; the
second is reachable from beam with half-angle (1/2 + 5e-10)*pi, where
betweenf's epsilon tolerance lets end_slope = 1 + 1e-9 exceed 1, refuting
the [0,1] bound for beam-reachable invocations. -/
theorem c8_counterexample :
    (Event.call 1 (9/10) (1/10) ∈ fovBeam2 transparentOct 0 0 5 (9/8) (9/5) ∧
      ¬ ((9/10 : Rat) ≤ (1/10 : Rat))) ∧
    (Event.call 1 0 (1 + 1/1000000000) ∈
        fovBeam transparentOct 0 0 2 "east" (1/2 + 1/2000000000) ∧
      ¬ ((1 + 1/1000000000 : Rat) ≤ 1)) := by decide

/-! ### C9: direction dispatch (counterexample part) -/

/-- C9 counterexample: both halves of the claim fail as stated.  With angle
2*pi (not excluded by the claim) an unrecognized direction still lights a
full circle, so a tile callback fires; and the recognized direction west
with radius 1 (allowed by the claim) and angle 0.9*pi > 3*45 degrees on a
fully transparent grid invokes apply on no tile at all. -/
theorem c9_counterexample :
    applied (fovBeam transparentOct 0 0 2 "bogus" 2) ≠ [] ∧
    applied (fovBeam transparentOct 0 0 1 "west" (9/10)) = [] := by decide

end Fovjs

namespace Fovjs

theorem applied_append (l1 l2 : List Event) :
    applied (l1 ++ l2) = applied l1 ++ applied l2 := List.filterMap_append l1 l2 _

theorem applied_ne_nil_of_mem {x y : Int} {evs : List Event}
    (h : Event.apply x y ∈ evs) : applied evs ≠ [] := by
  intro hc
  rw [applied, List.filterMap_eq_nil_iff] at hc
  simpa using hc _ h

theorem shapeH_one_pos (sh : Shape) (radius : Nat) (hr : 2 ≤ radius) :
    1 ≤ shapeH sh radius 1 := by
  cases sh with
  | circle => exact Nat.le_sqrt.mpr (Nat.le_sub_of_add_le (by nlinarith))
  | octagon =>
    show 1 ≤ (radius - 1) * 2
    omega

theorem go_start (c : Ctx) (fuel : Nat) (s e : Rat) (hf : fuel ≠ 0) (h1 : 1 ≤ c.radius) :
    go c fuel 1 s e = Event.call 1 s e :: octColumn c (go c (fuel - 1)) 1 s e := by
  rw [go_succ _ _ _ _ _ hf, if_pos (Or.inr h1)]
  norm_num

theorem octFires (c : Ctx) (htr : ∀ x y, c.st.isOpaque x y = false)
    (hr : 2 ≤ c.radius) (hok : c.rx = false ∨ c.signy = 1) :
    applied (fovOctant c 1 0 1) ≠ [] := by
  have hh := shapeH_one_pos c.st.shape c.radius hr
  have hlo : rowLo 1 0 = 0 := by norm_num [rowLo, jsTrunc]
  rw [fovOctant, go_start c _ 0 1 (by omega) (by omega)]
  cases hrx : c.rx with
  | false =>
    apply applied_ne_nil_of_mem (x := (tileOf c 1 1).1) (y := (tileOf c 1 1).2)
    have hpre : rowHiPre c 1 1 = 1 := by
      rw [rowHiPre]
      norm_num [jsTrunc, hrx]
    have hhi : rowHi c 1 1 = 1 := by
      rw [rowHi, hpre]
      rw [if_neg (by simp only [abs_one]; omega)]
    have hnc : ¬ hCollapsed c 1 1 := by
      rintro ⟨-, h0⟩
      omega
    rw [octColumn, if_neg hnc, hlo, hhi]
    have hrows : rowRange 0 1 = [0, 1] := by decide
    rw [hrows]
    simp only [scanRows, htr]
    simp [htr]
  | true =>
    have hsy : c.signy = 1 := by
      rcases hok with h | h
      · rw [hrx] at h; cases h
      · exact h
    apply applied_ne_nil_of_mem (x := (tileOf c 1 0).1) (y := (tileOf c 1 0).2)
    have hpre : rowHiPre c 1 1 = 0 := by
      rw [rowHiPre]
      norm_num [jsTrunc, hrx]
    have hhi : rowHi c 1 1 = 0 := by
      rw [rowHi, hpre]
      rw [if_neg (by simp)]
    have hnc : ¬ hCollapsed c 1 1 := by
      rintro ⟨h1, -⟩
      rw [hpre] at h1
      simp only [abs_zero] at h1
      omega
    rw [octColumn, if_neg hnc, hlo, hhi]
    have hrows : rowRange 0 0 = [0] := by decide
    rw [hrows]
    simp only [scanRows, htr]
    simp [htr, hsy]

end Fovjs

namespace Fovjs

theorem betweenf_big {x : Rat} (h : 3/2 < x) : betweenf x 0 1 = 1 := by
  rw [betweenf, if_neg (by rw [FLT_EPSILON]; norm_num; linarith),
    if_pos (by rw [FLT_EPSILON]; norm_num; linarith)]

theorem betweenf_neg {x : Rat} (h : x ≤ 0) : betweenf x 0 1 = 0 := by
  rw [betweenf, if_pos (by rw [FLT_EPSILON]; norm_num; linarith)]

theorem ne_nil_left {A B : List Event} (h : applied A ≠ []) : applied (A ++ B) ≠ [] := by
  rw [applied_append]
  intro hc
  exact h (List.append_eq_nil.mp hc).1

theorem ne_nil_right {A B : List Event} (h : applied B ≠ []) : applied (A ++ B) ≠ [] := by
  rw [applied_append]
  intro hc
  exact h (List.append_eq_nil.mp hc).2

/-- C9 amended: for every settings, grid, source, radius >= 1 and angle
strictly below 2*pi, beam with an unrecognized direction name performs
nothing at all (so neither opaque nor apply fires); and each of the eight
recognized direction names, for radius >= 2 (instead of the claimed 1),
angle > 3*45 degrees and a fully transparent grid, causes at least one
apply invocation. -/
theorem c9_direction_dispatch :
    (∀ (st : Settings) (sx sy : Int) (radius : Nat) (dir : String) (anglePi : Rat),
      1 ≤ radius → anglePi < 2 → dir ∉ dirNames →
      fovBeam st sx sy radius dir anglePi = []) ∧
    (∀ (st : Settings) (sx sy : Int) (radius : Nat) (dir : String) (anglePi : Rat),
      2 ≤ radius → 3/4 < anglePi → (∀ x y, st.isOpaque x y = false) → dir ∈ dirNames →
      applied (fovBeam st sx sy radius dir anglePi) ≠ []) := by
  constructor
  · intro st sx sy radius dir aPi _ h2 hdir
    have hne : ∀ d, d ∈ dirNames → dir ≠ d := fun d hd heq => hdir (heq ▸ hd)
    have e1 : dir ≠ "east" := hne _ (by simp [dirNames])
    have e2 : dir ≠ "west" := hne _ (by simp [dirNames])
    have e3 : dir ≠ "north" := hne _ (by simp [dirNames])
    have e4 : dir ≠ "south" := hne _ (by simp [dirNames])
    have e5 : dir ≠ "northeast" := hne _ (by simp [dirNames])
    have e6 : dir ≠ "northwest" := hne _ (by simp [dirNames])
    have e7 : dir ≠ "southeast" := hne _ (by simp [dirNames])
    have e8 : dir ≠ "southwest" := hne _ (by simp [dirNames])
    by_cases h0 : aPi ≤ 0
    · simp [fovBeam, h0]
    · rw [fovBeam, if_neg h0, if_neg (by linarith)]
      simp [beamDirection, beamDirectionDiag, e1, e2, e3, e4, e5, e6, e7, e8]
  · intro st sx sy radius dir aPi hr ha htr hdir
    have h0 : ¬ (aPi ≤ 0) := by linarith
    have ha2 : 3/2 < aPi * 2 := by linarith
    have ha1 : 1 - aPi * 2 ≤ 0 := by linarith
    by_cases hbig : 2 ≤ aPi
    · rw [fovBeam, if_neg h0, if_pos hbig, fovCircleAux]
      exact ne_nil_left (ne_nil_left (ne_nil_left (ne_nil_left (ne_nil_left (ne_nil_left
        (ne_nil_left (octFires ⟨st, sx, sy, radius, 1, 1, false⟩ htr hr (Or.inl rfl))))))))
    · rw [fovBeam, if_neg h0, if_neg hbig]
      simp only [dirNames, List.mem_cons, List.mem_singleton, List.not_mem_nil,
        or_false] at hdir
      rcases hdir with h | h | h | h | h | h | h | h <;> subst h
      · -- east: branch1 p1 = ppn = (1,1,false)
        apply ne_nil_left
        rw [beamDirection, if_pos rfl, betweenf_big ha2]
        exact ne_nil_left (ne_nil_left
          (octFires ⟨st, sx, sy, radius, 1, 1, false⟩ htr hr (Or.inl rfl)))
      · -- west: branch1 p1 = mpn = (-1,1,false)
        apply ne_nil_right; apply ne_nil_left
        rw [beamDirection, if_pos rfl, betweenf_big ha2]
        exact ne_nil_left (ne_nil_left
          (octFires ⟨st, sx, sy, radius, -1, 1, false⟩ htr hr (Or.inl rfl)))
      · -- north: branch1 p1 = mpy = (-1,1,true)
        apply ne_nil_right; apply ne_nil_right; apply ne_nil_left
        rw [beamDirection, if_pos rfl, betweenf_big ha2]
        exact ne_nil_left (ne_nil_left
          (octFires ⟨st, sx, sy, radius, -1, 1, true⟩ htr hr (Or.inr rfl)))
      · -- south: branch1 p2 = ppy = (1,1,true)
        apply ne_nil_right; apply ne_nil_right; apply ne_nil_right; apply ne_nil_left
        rw [beamDirection, if_pos rfl, betweenf_big ha2]
        exact ne_nil_left (ne_nil_right
          (octFires ⟨st, sx, sy, radius, 1, 1, true⟩ htr hr (Or.inr rfl)))
      · -- northeast: branch1 p1 = pmn = (1,-1,false)
        apply ne_nil_right; apply ne_nil_right; apply ne_nil_right; apply ne_nil_right
        apply ne_nil_left
        rw [beamDirectionDiag, if_pos rfl, betweenf_neg ha1]
        exact ne_nil_left (ne_nil_left
          (octFires ⟨st, sx, sy, radius, 1, -1, false⟩ htr hr (Or.inl rfl)))
      · -- northwest: branch1 p1 = mmn = (-1,-1,false)
        apply ne_nil_right; apply ne_nil_right; apply ne_nil_right; apply ne_nil_right
        apply ne_nil_right; apply ne_nil_left
        rw [beamDirectionDiag, if_pos rfl, betweenf_neg ha1]
        exact ne_nil_left (ne_nil_left
          (octFires ⟨st, sx, sy, radius, -1, -1, false⟩ htr hr (Or.inl rfl)))
      · -- southeast: branch1 p1 = ppn = (1,1,false)
        apply ne_nil_right; apply ne_nil_right; apply ne_nil_right; apply ne_nil_right
        apply ne_nil_right; apply ne_nil_right; apply ne_nil_left
        rw [beamDirectionDiag, if_pos rfl, betweenf_neg ha1]
        exact ne_nil_left (ne_nil_left
          (octFires ⟨st, sx, sy, radius, 1, 1, false⟩ htr hr (Or.inl rfl)))
      · -- southwest: branch1 p2 = mpn = (-1,1,false)
        apply ne_nil_right; apply ne_nil_right; apply ne_nil_right; apply ne_nil_right
        apply ne_nil_right; apply ne_nil_right; apply ne_nil_right
        rw [beamDirectionDiag, if_pos rfl, betweenf_neg ha1]
        exact ne_nil_left (ne_nil_right
          (octFires ⟨st, sx, sy, radius, -1, 1, false⟩ htr hr (Or.inl rfl)))

end Fovjs

namespace Fovjs

/-- Witness for c9_direction_dispatch: both halves instantiated. -/
theorem c9_direction_dispatch_witness :
    fovBeam transparentOct 0 0 3 "diagonal" (3/2) = [] ∧
    applied (fovBeam transparentOct 0 0 3 "north" 1) ≠ [] :=
  ⟨c9_direction_dispatch.1 transparentOct 0 0 3 "diagonal" (3/2) (by norm_num) (by norm_num)
      (by decide),
    c9_direction_dispatch.2 transparentOct 0 0 3 "north" 1 (by norm_num) (by norm_num)
      (fun _ _ => rfl) (by decide)⟩

end Fovjs

namespace Fovjs

theorem jsTrunc_of_nonneg {x : Rat} (h : 0 ≤ x) : jsTrunc x = ⌊x⌋ := if_pos h

theorem jsTrunc_nonneg {x : Rat} (h : 0 ≤ x) : 0 ≤ jsTrunc x := by
  rw [jsTrunc_of_nonneg h]
  exact Int.floor_nonneg.mpr h

theorem jsTrunc_mono {x y : Rat} (h : x ≤ y) : jsTrunc x ≤ jsTrunc y := by
  unfold jsTrunc
  split_ifs with hx hy hy
  · exact Int.floor_le_floor h
  · exact absurd (le_trans hx h) hy
  · have h1 : -⌊-x⌋ ≤ 0 := by
      simp only [neg_nonpos]
      exact Int.floor_nonneg.mpr (by linarith [not_le.mp hx])
    exact le_trans h1 (Int.floor_nonneg.mpr hy)
  · simp only [neg_le_neg_iff]
    exact Int.floor_le_floor (by linarith)

theorem jsTrunc_half_add_nat (n : Nat) : jsTrunc (1/2 + (n : Rat)) = n := by
  rw [jsTrunc_of_nonneg (by positivity), Int.floor_eq_iff]
  constructor <;> push_cast <;> linarith

theorem mem_rowRange {a b dy : Int} : dy ∈ rowRange a b ↔ a ≤ dy ∧ dy ≤ b := by
  constructor
  · intro h
    obtain ⟨i, hi, hieq⟩ := List.mem_map.mp h
    rw [List.mem_range] at hi
    omega
  · rintro ⟨h1, h2⟩
    exact List.mem_map.mpr ⟨(dy - a).toNat, List.mem_range.mpr (by omega), by omega⟩

theorem rowRange_pairwise (a b : Int) : List.Pairwise (· < ·) (rowRange a b) := by
  unfold rowRange
  exact (List.pairwise_lt_range _).map _ (fun h => by omega)

theorem fovSlope_posden {a b : Rat} (ha : FLT_EPSILON ≤ a) : fovSlope a b = b / a :=
  if_pos (Or.inr ha)

/-- The split slope of lines 108-109: (dy-1/2)/(dx+1/2), within [0,1] for
1 <= dy <= dx. -/
theorem splitSlope_bounds {dx : Nat} {dy : Int} (h1 : 1 ≤ dy) (h2 : dy ≤ (dx : Int)) :
    0 ≤ fovSlope ((dx : Rat) + 1/2) ((dy : Rat) - 1/2) ∧
      fovSlope ((dx : Rat) + 1/2) ((dy : Rat) - 1/2) ≤ 1 := by
  have hdx : (1 : Rat) ≤ (dx : Rat) := by exact_mod_cast (le_trans h1 h2 : (1:Int) ≤ dx)
  have hdy : (1 : Rat) ≤ (dy : Rat) := by exact_mod_cast h1
  have hdd : (dy : Rat) ≤ (dx : Rat) := by exact_mod_cast h2
  rw [fovSlope_posden (by rw [FLT_EPSILON]; norm_num; linarith)]
  refine ⟨div_nonneg (by linarith) (by linarith), ?_⟩
  rw [div_le_one (by linarith)]
  linarith

/-- The updated start slope of line 119: (dy-1/2)/(dx-1/2), within [0,1] for
1 <= dy <= dx. -/
theorem updSlope_bounds {dx : Nat} {dy : Int} (h1 : 1 ≤ dy) (h2 : dy ≤ (dx : Int)) :
    0 ≤ fovSlope ((dx : Rat) - 1/2) ((dy : Rat) - 1/2) ∧
      fovSlope ((dx : Rat) - 1/2) ((dy : Rat) - 1/2) ≤ 1 := by
  have hdx : (1 : Rat) ≤ (dx : Rat) := by exact_mod_cast (le_trans h1 h2 : (1:Int) ≤ dx)
  have hdy : (1 : Rat) ≤ (dy : Rat) := by exact_mod_cast h1
  have hdd : (dy : Rat) ≤ (dx : Rat) := by exact_mod_cast h2
  rw [fovSlope_posden (by rw [FLT_EPSILON]; norm_num; linarith)]
  refine ⟨div_nonneg (by linarith) (by linarith), ?_⟩
  rw [div_le_one (by linarith)]
  linarith

theorem rowLo_nonneg {dx : Nat} {s : Rat} (hs : 0 ≤ s) : 0 ≤ rowLo dx s :=
  jsTrunc_nonneg (by positivity)

theorem rowHiPre_le {c : Ctx} {dx : Nat} {e : Rat} (he : e ≤ 1) :
    rowHiPre c dx e ≤ (dx : Int) := by
  rw [rowHiPre]
  have hb : jsTrunc (1/2 + (dx : Rat) * e) ≤ (dx : Int) := by
    calc jsTrunc (1/2 + (dx : Rat) * e) ≤ jsTrunc (1/2 + (dx : Rat)) :=
      jsTrunc_mono (by nlinarith [Nat.cast_nonneg (α := Rat) dx])
    _ = (dx : Int) := jsTrunc_half_add_nat dx
  split_ifs <;> omega

theorem rowHiPre_neg_one_le {c : Ctx} {dx : Nat} {e : Rat} (he : 0 ≤ e) :
    -1 ≤ rowHiPre c dx e := by
  rw [rowHiPre]
  have : (0 : Int) ≤ jsTrunc (1/2 + (dx : Rat) * e) := jsTrunc_nonneg (by positivity)
  split_ifs <;> omega

theorem rowHi_le {c : Ctx} {dx : Nat} {e : Rat} (hdx : 1 ≤ dx) (he0 : 0 ≤ e) (he1 : e ≤ 1) :
    rowHi c dx e ≤ (dx : Int) := by
  have hpre := @rowHiPre_le c dx e he1
  have hpre0 := @rowHiPre_neg_one_le c dx e he0
  rw [rowHi]
  split_ifs with h
  · have habs : |rowHiPre c dx e| ≤ (dx : Int) := by
      rw [abs_le]
      omega
    omega
  · exact hpre

end Fovjs

namespace Fovjs

theorem scanState_s_bounds (c : Ctx) (dx : Nat) :
    ∀ (rows : List Int) (prev : Int) (s : Rat), 0 ≤ s → s ≤ 1 →
      (∀ dy ∈ rows, dy ≤ (dx : Int)) →
      (∀ dy ∈ rows, 0 ≤ dy) →
      List.Pairwise (· < ·) rows →
      (prev ≠ -1 → ∀ dy ∈ rows, 1 ≤ dy) →
      0 ≤ (scanState c dx rows prev s).2 ∧ (scanState c dx rows prev s).2 ≤ 1 := by
  intro rows
  induction rows with
  | nil => intro prev s hs0 hs1 _ _ _ _; exact ⟨hs0, hs1⟩
  | cons dy rest ih =>
    intro prev s hs0 hs1 hle h0 hpw hpv
    have hrest_le : ∀ d ∈ rest, d ≤ (dx : Int) :=
      fun d hd => hle d (List.mem_cons_of_mem _ hd)
    have hrest0 : ∀ d ∈ rest, 0 ≤ d := fun d hd => h0 d (List.mem_cons_of_mem _ hd)
    have hdy0 : 0 ≤ dy := h0 dy (List.mem_cons_self _ _)
    have hrest1 : ∀ d ∈ rest, 1 ≤ d := by
      intro d hd
      have := (List.pairwise_cons.mp hpw).1 d hd
      omega
    have hpw2 : List.Pairwise (· < ·) rest := (List.pairwise_cons.mp hpw).2
    simp only [scanState]
    split_ifs with hop hup
    · exact ih 1 s hs0 hs1 hrest_le hrest0 hpw2 (fun _ => hrest1)
    · have h1dy : 1 ≤ dy := by
        have hp1 : prev = 1 := by simpa using hup
        exact hpv (by omega) dy (List.mem_cons_self _ _)
      have hb := updSlope_bounds h1dy (hle dy (List.mem_cons_self _ _))
      exact ih 0 _ hb.1 hb.2 hrest_le hrest0 hpw2 (fun _ => hrest1)
    · exact ih 0 s hs0 hs1 hrest_le hrest0 hpw2 (fun _ => hrest1)

theorem scanRows_slopes (c : Ctx) (dx : Nat) (e : Rat) (he0 : 0 ≤ e) (he1 : e ≤ 1)
    (split : Rat → Rat → List Event)
    (hsplit : ∀ s' e', 0 ≤ s' → s' ≤ 1 → 0 ≤ e' → e' ≤ 1 →
      ∀ ev ∈ split s' e', slopesInUnit ev) :
    ∀ (rows : List Int) (prev : Int) (s : Rat), 0 ≤ s → s ≤ 1 →
      (∀ dy ∈ rows, dy ≤ (dx : Int)) →
      (∀ dy ∈ rows, 0 ≤ dy) →
      List.Pairwise (· < ·) rows →
      (prev ≠ -1 → ∀ dy ∈ rows, 1 ≤ dy) →
      ∀ ev ∈ scanRows c dx e split rows prev s, slopesInUnit ev := by
  intro rows
  induction rows with
  | nil => intro prev s _ _ _ _ _ _ ev hev; simp [scanRows] at hev
  | cons dy rest ih =>
    intro prev s hs0 hs1 hle h0 hpw hpv ev hev
    have hrest_le : ∀ d ∈ rest, d ≤ (dx : Int) :=
      fun d hd => hle d (List.mem_cons_of_mem _ hd)
    have hrest0 : ∀ d ∈ rest, 0 ≤ d := fun d hd => h0 d (List.mem_cons_of_mem _ hd)
    have hdy0 : 0 ≤ dy := h0 dy (List.mem_cons_self _ _)
    have hdyle : dy ≤ (dx : Int) := hle dy (List.mem_cons_self _ _)
    have hrest1 : ∀ d ∈ rest, 1 ≤ d := by
      intro d hd
      have := (List.pairwise_cons.mp hpw).1 d hd
      omega
    have hpw2 : List.Pairwise (· < ·) rest := (List.pairwise_cons.mp hpw).2
    simp only [scanRows] at hev
    by_cases hop : c.st.isOpaque (tileOf c dx dy).1 (tileOf c dx dy).2 = true
    · rw [if_pos hop] at hev
      simp only [List.mem_cons, List.mem_append] at hev
      rcases hev with rfl | hA | hS | hR
      · trivial
      · split_ifs at hA
        · simp only [List.mem_singleton] at hA
          subst hA; trivial
        · simp at hA
      · split_ifs at hS with hp0
        · have h1dy : 1 ≤ dy := by
            have hp : prev = 0 := by simpa using hp0
            exact hpv (by omega) dy (List.mem_cons_self _ _)
          have hb := splitSlope_bounds h1dy hdyle
          exact hsplit s _ hs0 hs1 hb.1 hb.2 ev hS
        · simp at hS
      · exact ih 1 s hs0 hs1 hrest_le hrest0 hpw2 (fun _ => hrest1) ev hR
    · rw [if_neg hop] at hev
      simp only [List.mem_cons, List.mem_append] at hev
      rcases hev with rfl | hA | hU | hR
      · trivial
      · split_ifs at hA
        · simp only [List.mem_singleton] at hA
          subst hA; trivial
        · simp at hA
      · split_ifs at hU with hp1
        · have h1dy : 1 ≤ dy := by
            have hp : prev = 1 := by simpa using hp1
            exact hpv (by omega) dy (List.mem_cons_self _ _)
          have hb := updSlope_bounds h1dy hdyle
          simp only [List.mem_singleton] at hU
          subst hU
          exact ⟨hb.1, hb.2, he0, he1⟩
        · simp at hU
      · split_ifs at hR with hp1
        · have h1dy : 1 ≤ dy := by
            have hp : prev = 1 := by simpa using hp1
            exact hpv (by omega) dy (List.mem_cons_self _ _)
          have hb := updSlope_bounds h1dy hdyle
          exact ih 0 _ hb.1 hb.2 hrest_le hrest0 hpw2 (fun _ => hrest1) ev hR
        · exact ih 0 s hs0 hs1 hrest_le hrest0 hpw2 (fun _ => hrest1) ev hR

theorem go_slopes (c : Ctx) :
    ∀ (fuel dxArg : Nat) (s e : Rat), 0 ≤ s → s ≤ 1 → 0 ≤ e → e ≤ 1 →
      ∀ ev ∈ go c fuel dxArg s e, slopesInUnit ev := by
  intro fuel
  induction fuel with
  | zero => intro dxArg s e _ _ _ _ ev hev; simp [go] at hev
  | succ n ih =>
    intro dxArg s e hs0 hs1 he0 he1 ev hev
    simp only [go, List.mem_cons] at hev
    rcases hev with rfl | hev
    · exact ⟨hs0, hs1, he0, he1⟩
    rcases Decidable.em (dxArg = 0 ∨ dxArg ≤ c.radius) with hguard | hguard
    swap
    · rw [if_neg hguard] at hev
      simp at hev
    rw [if_pos hguard] at hev
    generalize hdxe : (if dxArg = 0 then 1 else dxArg) = dx at hev
    have hdx1 : 1 ≤ dx := by
      rw [← hdxe]
      split_ifs <;> omega
    rw [octColumn] at hev
    split_ifs at hev with hcol
    · simp at hev
    simp only [List.mem_append] at hev
    have hlo0 : 0 ≤ rowLo dx s := rowLo_nonneg hs0
    have hhile : rowHi c dx e ≤ (dx : Int) := rowHi_le hdx1 he0 he1
    have hmem_le : ∀ dy ∈ rowRange (rowLo dx s) (rowHi c dx e), dy ≤ (dx : Int) :=
      fun dy hdy => le_trans (mem_rowRange.mp hdy).2 hhile
    have hmem0 : ∀ dy ∈ rowRange (rowLo dx s) (rowHi c dx e), 0 ≤ dy :=
      fun dy hdy => le_trans hlo0 (mem_rowRange.mp hdy).1
    rcases hev with hR | hT
    · exact scanRows_slopes c dx e he0 he1 _
        (fun s' e' a b cc d => ih (dx + 1) s' e' a b cc d)
        _ (-1) s hs0 hs1 hmem_le hmem0 (rowRange_pairwise _ _) (fun hc => absurd rfl hc)
        ev hR
    · split_ifs at hT with hfin
      · have hsb := scanState_s_bounds c dx (rowRange (rowLo dx s) (rowHi c dx e)) (-1) s
          hs0 hs1 hmem_le hmem0 (rowRange_pairwise _ _) (fun hc => absurd rfl hc)
        exact ih (dx + 1) _ e hsb.1 hsb.2 he0 he1 ev hT
      · simp at hT

theorem beam2Loop_slopes (st : Settings) (sx sy : Int) (radius : Nat) (q1 q2 : Rat) :
    ∀ (fuel : Nat) (i : Int),
      ∀ ev ∈ beam2Loop st sx sy radius q1 q2 ⌊q1⌋ ⌊q2⌋ fuel i, slopesInUnit ev := by
  intro fuel
  induction fuel with
  | zero => intro i ev hev; simp [beam2Loop] at hev
  | succ n ih =>
    intro i ev hev
    have hfr1a := Int.fract_nonneg q1
    have hfr1b := Int.fract_lt_one q1
    have hfr2a := Int.fract_nonneg q2
    have hfr2b := Int.fract_lt_one q2
    rw [Int.fract] at hfr1a hfr1b hfr2a hfr2b
    simp only [beam2Loop, List.mem_append] at hev
    set L := (if i = ⌊q1⌋ then q1 - (i : Rat) else 0) with hLdef
    set R := (if i = ⌊q2⌋ then q2 - (i : Rat) else 1) with hRdef
    have hl0 : 0 ≤ L := by
      rw [hLdef]
      split_ifs with h
      · rw [h]; exact hfr1a
      · exact le_refl 0
    have hl1 : L ≤ 1 := by
      rw [hLdef]
      split_ifs with h
      · rw [h]; linarith
      · norm_num
    have hr0 : 0 ≤ R := by
      rw [hRdef]
      split_ifs with h
      · rw [h]; exact hfr2a
      · norm_num
    have hr1 : R ≤ 1 := by
      rw [hRdef]
      split_ifs with h
      · rw [h]; linarith
      · norm_num
    rcases hev with hoct | hrest
    · split_ifs at hoct with hpar
      · rw [fovOctant] at hoct
        exact go_slopes _ _ _ _ _ hl0 hl1 hr0 hr1 ev hoct
      · rw [fovOctant] at hoct
        exact go_slopes _ _ _ _ _ (by linarith) (by linarith) (by linarith) (by linarith)
          ev hoct
    · split_ifs at hrest with hstop
      · simp at hrest
      · exact ih _ ev hrest

/-- C8 amended: every invocation of the octant scanner reachable from circle
or from beam2 - the initial driver invocations, the recursive shadow-split
and continuation calls, and the in-loop start_slope updates - has both
start_slope and end_slope inside [0,1].  The ordering start <= end of the
claim does not hold (c8_counterexample), and invocations reachable from beam
can exceed 1 by betweenf's epsilon tolerance (also in c8_counterexample). -/
theorem c8_slope_interval :
    (∀ (st : Settings) (sx sy : Int) (radius : Nat),
      ∀ ev ∈ fovCircle st sx sy radius, slopesInUnit ev) ∧
    (∀ (st : Settings) (sx sy : Int) (radius : Nat) (anglePi spreadPi : Rat),
      ∀ ev ∈ fovBeam2 st sx sy radius anglePi spreadPi, slopesInUnit ev) := by
  have hcirc : ∀ (st : Settings) (sx sy : Int) (radius : Nat),
      ∀ ev ∈ fovCircleAux st sx sy radius, slopesInUnit ev := by
    intro st sx sy radius ev hev
    simp only [fovCircleAux, fovOctant, List.mem_append] at hev
    rcases hev with ((((((h|h)|h)|h)|h)|h)|h)|h <;>
      exact go_slopes _ _ _ _ _ (by norm_num) (by norm_num) (by norm_num) (by norm_num) ev h
  refine ⟨fun st sx sy radius => hcirc st sx sy radius, ?_⟩
  intro st sx sy radius aPi sPi ev hev
  rw [fovBeam2] at hev
  split_ifs at hev with h1 h2
  · simp at hev
  · exact hcirc _ _ _ _ ev hev
  · exact beam2Loop_slopes st sx sy radius _ _ 8 _ ev hev

/-- Witness for c8_slope_interval: a concrete recorded invocation from a
circle call. -/
theorem c8_slope_interval_witness : slopesInUnit (Event.call 1 0 1) :=
  c8_slope_interval.1 transparentOct 0 0 1 (Event.call 1 0 1) (by decide)

end Fovjs

namespace Fovjs

theorem tileOf_ne_source (c : Ctx) (hsx : c.signx = 1 ∨ c.signx = -1)
    {dx : Nat} (hdx : 1 ≤ dx) (dy : Int) : tileOf c dx dy ≠ (c.sx, c.sy) := by
  rw [tileOf]
  split_ifs with hrx
  · intro h
    have h2 : c.sy + c.signx * (dx : Int) = c.sy := congrArg Prod.snd h
    have hdxi : (1 : Int) ≤ (dx : Int) := by exact_mod_cast hdx
    rcases hsx with h1 | h1 <;> rw [h1] at h2 <;> omega
  · intro h
    have h2 : c.sx + c.signx * (dx : Int) = c.sx := congrArg Prod.fst h
    have hdxi : (1 : Int) ≤ (dx : Int) := by exact_mod_cast hdx
    rcases hsx with h1 | h1 <;> rw [h1] at h2 <;> omega

theorem scanRows_no_self (c : Ctx) (hsx : c.signx = 1 ∨ c.signx = -1)
    (dx : Nat) (hdx : 1 ≤ dx) (e : Rat) (split : Rat → Rat → List Event)
    (hsplit : ∀ s' e', Event.apply c.sx c.sy ∉ split s' e') :
    ∀ (rows : List Int) (prev : Int) (s : Rat),
      Event.apply c.sx c.sy ∉ scanRows c dx e split rows prev s := by
  intro rows
  induction rows with
  | nil => intro prev s; simp [scanRows]
  | cons dy rest ih =>
    intro prev s
    have htile := tileOf_ne_source c hsx hdx dy
    simp only [scanRows]
    by_cases hop : c.st.isOpaque (tileOf c dx dy).1 (tileOf c dx dy).2 = true
    · rw [if_pos hop]
      intro hmem
      simp only [List.mem_cons, List.mem_append] at hmem
      rcases hmem with h | h | h | h
      · exact Event.noConfusion h
      · split_ifs at h
        · simp only [List.mem_singleton] at h
          injection h with hx hy
          exact htile (Prod.ext hx.symm hy.symm)
        · simp at h
      · split_ifs at h
        · exact hsplit _ _ h
        · simp at h
      · exact ih 1 s h
    · rw [if_neg hop]
      intro hmem
      simp only [List.mem_cons, List.mem_append] at hmem
      rcases hmem with h | h | h | h
      · exact Event.noConfusion h
      · split_ifs at h
        · simp only [List.mem_singleton] at h
          injection h with hx hy
          exact htile (Prod.ext hx.symm hy.symm)
        · simp at h
      · split_ifs at h <;> simp at h
      · split_ifs at h
        · exact ih 0 _ h
        · exact ih 0 s h

theorem go_no_self (c : Ctx) (hsx : c.signx = 1 ∨ c.signx = -1) :
    ∀ (fuel dxArg : Nat) (s e : Rat), Event.apply c.sx c.sy ∉ go c fuel dxArg s e := by
  intro fuel
  induction fuel with
  | zero => intro dxArg s e; simp [go]
  | succ n ih =>
    intro dxArg s e
    simp only [go, List.mem_cons]
    rintro (h | h)
    · exact Event.noConfusion h
    rcases Decidable.em (dxArg = 0 ∨ dxArg ≤ c.radius) with hguard | hguard
    swap
    · rw [if_neg hguard] at h
      simp at h
    rw [if_pos hguard] at h
    generalize hdxe : (if dxArg = 0 then 1 else dxArg) = dx at h
    have hdx1 : 1 ≤ dx := by
      rw [← hdxe]
      split_ifs <;> omega
    rw [octColumn] at h
    split_ifs at h with hcol
    · simp at h
    simp only [List.mem_append] at h
    rcases h with h | h
    · exact scanRows_no_self c hsx dx hdx1 e _ (fun s' e' => ih (dx + 1) s' e') _ _ _ h
    · split_ifs at h with hfin
      · exact ih (dx + 1) _ e h
      · simp at h

theorem octant2_no_self (st : Settings) (sx sy : Int) (radius : Nat)
    (p q : OctDesc) (dx : Nat) (s e : Rat)
    (hp : p.1 = 1 ∨ p.1 = -1) (hq : q.1 = 1 ∨ q.1 = -1) :
    Event.apply sx sy ∉ fovOctant2 st sx sy radius p q dx s e := by
  rw [fovOctant2]
  simp only [List.mem_append]
  rintro (h | h)
  · exact go_no_self ⟨st, sx, sy, radius, p.1, p.2.1, p.2.2⟩ hp _ _ _ _ h
  · exact go_no_self ⟨st, sx, sy, radius, q.1, q.2.1, q.2.2⟩ hq _ _ _ _ h

end Fovjs

namespace Fovjs

theorem beamDirection_no_self (st : Settings) (sx sy : Int) (radius : Nat)
    (dir : String) (a : Rat) (d : String) (p1 p2 p3 p4 p5 p6 p7 p8 : OctDesc)
    (h1 : p1.1 = 1 ∨ p1.1 = -1) (h2 : p2.1 = 1 ∨ p2.1 = -1)
    (h3 : p3.1 = 1 ∨ p3.1 = -1) (h4 : p4.1 = 1 ∨ p4.1 = -1)
    (h5 : p5.1 = 1 ∨ p5.1 = -1) (h6 : p6.1 = 1 ∨ p6.1 = -1)
    (h7 : p7.1 = 1 ∨ p7.1 = -1) (h8 : p8.1 = 1 ∨ p8.1 = -1) :
    Event.apply sx sy ∉ beamDirection st sx sy radius dir a d p1 p2 p3 p4 p5 p6 p7 p8 := by
  rw [beamDirection]
  by_cases hd : dir = d
  case neg => rw [if_neg hd]; simp
  rw [if_pos hd]
  · simp only [List.mem_append]
    rintro (h | h | h | h)
    · exact octant2_no_self st sx sy radius p1 p2 _ _ _ h1 h2 h
    · split_ifs at h
      · exact octant2_no_self st sx sy radius p3 p4 _ _ _ h3 h4 h
      · simp at h
    · split_ifs at h
      · exact octant2_no_self st sx sy radius p5 p6 _ _ _ h5 h6 h
      · simp at h
    · split_ifs at h
      · exact octant2_no_self st sx sy radius p7 p8 _ _ _ h7 h8 h
      · simp at h

theorem beamDirectionDiag_no_self (st : Settings) (sx sy : Int) (radius : Nat)
    (dir : String) (a : Rat) (d : String) (p1 p2 p3 p4 p5 p6 p7 p8 : OctDesc)
    (h1 : p1.1 = 1 ∨ p1.1 = -1) (h2 : p2.1 = 1 ∨ p2.1 = -1)
    (h3 : p3.1 = 1 ∨ p3.1 = -1) (h4 : p4.1 = 1 ∨ p4.1 = -1)
    (h5 : p5.1 = 1 ∨ p5.1 = -1) (h6 : p6.1 = 1 ∨ p6.1 = -1)
    (h7 : p7.1 = 1 ∨ p7.1 = -1) (h8 : p8.1 = 1 ∨ p8.1 = -1) :
    Event.apply sx sy ∉ beamDirectionDiag st sx sy radius dir a d p1 p2 p3 p4 p5 p6 p7 p8 := by
  rw [beamDirectionDiag]
  by_cases hd : dir = d
  case neg => rw [if_neg hd]; simp
  rw [if_pos hd]
  · simp only [List.mem_append]
    rintro (h | h | h | h)
    · exact octant2_no_self st sx sy radius p1 p2 _ _ _ h1 h2 h
    · split_ifs at h
      · exact octant2_no_self st sx sy radius p3 p4 _ _ _ h3 h4 h
      · simp at h
    · split_ifs at h
      · exact octant2_no_self st sx sy radius p5 p6 _ _ _ h5 h6 h
      · simp at h
    · split_ifs at h
      · exact octant2_no_self st sx sy radius p7 p8 _ _ _ h7 h8 h
      · simp at h

theorem circleAux_no_self (st : Settings) (sx sy : Int) (radius : Nat) :
    Event.apply sx sy ∉ fovCircleAux st sx sy radius := by
  rw [fovCircleAux]
  simp only [List.mem_append, fovOctant]
  rintro (((((((h|h)|h)|h)|h)|h)|h)|h) <;>
    exact go_no_self _ (by norm_num) _ _ _ _ h

theorem angles_signx (n : Nat) :
    (ANGLES.getD n (1, 1, false)).1 = 1 ∨ (ANGLES.getD n (1, 1, false)).1 = -1 := by
  rcases n with _|_|_|_|_|_|_|_|n <;> norm_num [ANGLES]

theorem beam2Loop_no_self (st : Settings) (sx sy : Int) (radius : Nat)
    (q1 q2 : Rat) (qf1 qf2 : Int) :
    ∀ (fuel : Nat) (i : Int),
      Event.apply sx sy ∉ beam2Loop st sx sy radius q1 q2 qf1 qf2 fuel i := by
  intro fuel
  induction fuel with
  | zero => intro i; simp [beam2Loop]
  | succ n ih =>
    intro i
    simp only [beam2Loop, List.mem_append]
    rintro (h | h)
    · split_ifs at h with hpar <;>
      · rw [fovOctant] at h
        exact go_no_self _ (angles_signx _) _ _ _ _ h
    · split_ifs at h with hstop
      · simp at h
      · exact ih _ h

/-- C4: no public entry point ever invokes apply on the source tile itself:
in every reachable scan the examined tile differs from the source in the
coordinate carrying signx*dx, since dx >= 1 and signx is 1 or -1. -/
theorem c4_center_exclusion (st : Settings) (sx sy : Int) (radius : Nat)
    (dir : String) (anglePi spreadPi : Rat) :
    Event.apply sx sy ∉ fovCircle st sx sy radius ∧
    Event.apply sx sy ∉ fovBeam st sx sy radius dir anglePi ∧
    Event.apply sx sy ∉ fovBeam2 st sx sy radius anglePi spreadPi := by
  refine ⟨circleAux_no_self st sx sy radius, ?_, ?_⟩
  · rw [fovBeam]
    split_ifs with hle hbig
    · simp
    · exact circleAux_no_self st sx sy radius
    · simp only [List.mem_append]
      rintro (h | h | h | h | h | h | h | h)
      · exact beamDirection_no_self _ _ _ _ _ _ _ _ _ _ _ _ _ _ _
          (by norm_num) (by norm_num) (by norm_num) (by norm_num)
          (by norm_num) (by norm_num) (by norm_num) (by norm_num) h
      · exact beamDirection_no_self _ _ _ _ _ _ _ _ _ _ _ _ _ _ _
          (by norm_num) (by norm_num) (by norm_num) (by norm_num)
          (by norm_num) (by norm_num) (by norm_num) (by norm_num) h
      · exact beamDirection_no_self _ _ _ _ _ _ _ _ _ _ _ _ _ _ _
          (by norm_num) (by norm_num) (by norm_num) (by norm_num)
          (by norm_num) (by norm_num) (by norm_num) (by norm_num) h
      · exact beamDirection_no_self _ _ _ _ _ _ _ _ _ _ _ _ _ _ _
          (by norm_num) (by norm_num) (by norm_num) (by norm_num)
          (by norm_num) (by norm_num) (by norm_num) (by norm_num) h
      · exact beamDirectionDiag_no_self _ _ _ _ _ _ _ _ _ _ _ _ _ _ _
          (by norm_num) (by norm_num) (by norm_num) (by norm_num)
          (by norm_num) (by norm_num) (by norm_num) (by norm_num) h
      · exact beamDirectionDiag_no_self _ _ _ _ _ _ _ _ _ _ _ _ _ _ _
          (by norm_num) (by norm_num) (by norm_num) (by norm_num)
          (by norm_num) (by norm_num) (by norm_num) (by norm_num) h
      · exact beamDirectionDiag_no_self _ _ _ _ _ _ _ _ _ _ _ _ _ _ _
          (by norm_num) (by norm_num) (by norm_num) (by norm_num)
          (by norm_num) (by norm_num) (by norm_num) (by norm_num) h
      · exact beamDirectionDiag_no_self _ _ _ _ _ _ _ _ _ _ _ _ _ _ _
          (by norm_num) (by norm_num) (by norm_num) (by norm_num)
          (by norm_num) (by norm_num) (by norm_num) (by norm_num) h
  · rw [fovBeam2]
    split_ifs with hle hbig
    · simp
    · exact circleAux_no_self st sx sy radius
    · exact beam2Loop_no_self st sx sy radius _ _ _ _ 8 _

end Fovjs

namespace Fovjs
theorem colOf_tileOf (c : Ctx) (hx : c.signx = 1 ∨ c.signx = -1)
    (dx : Nat) (dy : Int) : colOf c (tileOf c dx dy) = (dx : Int) := by
  rw [colOf, tileOf]
  rcases hx with h | h <;>
    cases hrx : c.rx <;> simp [hrx, h] <;> ring

theorem rowOf_tileOf (c : Ctx) (hy : c.signy = 1 ∨ c.signy = -1)
    (dx : Nat) (dy : Int) : rowOf c (tileOf c dx dy) = dy := by
  rw [rowOf, tileOf]
  rcases hy with h | h <;>
    cases hrx : c.rx <;> simp [hrx, h] <;> ring

theorem rowLo_eq_rndI (dx : Nat) (s : Rat) : rowLo dx s = rndI (dx : Int) s := by
  rw [rowLo, rndI]
  norm_num

theorem rndI_mono_slope {col : Int} (hcol : 0 ≤ col) {q q' : Rat} (h : q ≤ q') :
    rndI col q ≤ rndI col q' := by
  apply jsTrunc_mono
  have : (0 : Rat) ≤ (col : Rat) := by exact_mod_cast hcol
  nlinarith

theorem jsTrunc_le_self {x : Rat} (h : 0 ≤ x) : (jsTrunc x : Rat) ≤ x := by
  rw [jsTrunc_of_nonneg h]
  exact_mod_cast Int.floor_le x

theorem jsTrunc_gt {x : Rat} (h : 0 ≤ x) : x - 1 < (jsTrunc x : Rat) := by
  rw [jsTrunc_of_nonneg h]
  have := Int.sub_one_lt_floor x
  exact_mod_cast this

/-- The split end slope is at most e, given dy below the rounded e-row. -/
theorem splitSlope_le_e {dx : Nat} {dy : Int} {e : Rat} (hdx : 1 ≤ dx)
    (hdy1 : 1 ≤ dy) (he0 : 0 ≤ e) (hdye : dy ≤ rndI (dx : Int) e) :
    fovSlope ((dx : Rat) + 1/2) ((dy : Rat) - 1/2) ≤ e := by
  have hdxq : (1 : Rat) ≤ (dx : Rat) := by exact_mod_cast hdx
  rw [fovSlope_posden (by rw [FLT_EPSILON]; norm_num; linarith)]
  rw [div_le_iff (by linarith)]
  have h1 : (dy : Rat) ≤ (rndI (dx : Int) e : Rat) := by exact_mod_cast hdye
  have h2 : (rndI (dx : Int) e : Rat) ≤ 1/2 + (dx : Rat) * e := by
    rw [rndI]
    push_cast
    exact jsTrunc_le_self (by positivity)
  nlinarith

/-- The updated start slope is at least the previous start slope, for rows
strictly above the rounded start row. -/
theorem updSlope_ge_s {dx : Nat} {dy : Int} {s : Rat} (hdx : 1 ≤ dx)
    (hs0 : 0 ≤ s) (hdys : rndI (dx : Int) s + 1 ≤ dy) :
    s ≤ fovSlope ((dx : Rat) - 1/2) ((dy : Rat) - 1/2) := by
  have hdxq : (1 : Rat) ≤ (dx : Rat) := by exact_mod_cast hdx
  rw [fovSlope_posden (by rw [FLT_EPSILON]; norm_num; linarith)]
  rw [le_div_iff (by linarith)]
  have h1 : (rndI (dx : Int) s : Rat) + 1 ≤ (dy : Rat) := by exact_mod_cast hdys
  have h2 : 1/2 + (dx : Rat) * s - 1 < (rndI (dx : Int) s : Rat) := by
    rw [rndI]
    push_cast
    exact jsTrunc_gt (by positivity)
  nlinarith

/-- The rounded row of the updated start slope does not exceed the clear row
that produced the update. -/
theorem rnd_updSlope_le {dx : Nat} {dy : Int} (hdx : 1 ≤ dx) (h1 : 1 ≤ dy)
    (h2 : dy ≤ (dx : Int)) :
    rndI (dx : Int) (fovSlope ((dx : Rat) - 1/2) ((dy : Rat) - 1/2)) ≤ dy := by
  have hdxq : (1 : Rat) ≤ (dx : Rat) := by exact_mod_cast hdx
  have hdyq : (1 : Rat) ≤ (dy : Rat) := by exact_mod_cast h1
  have hdyx : (dy : Rat) ≤ (dx : Rat) := by exact_mod_cast h2
  have hden : (0 : Rat) < (dx : Rat) - 1/2 := by linarith
  rw [fovSlope_posden (by rw [FLT_EPSILON]; norm_num; linarith)]
  have hq : (0 : Rat) ≤ ((dy : Rat) - 1/2) / ((dx : Rat) - 1/2) :=
    div_nonneg (by linarith) (le_of_lt hden)
  have hx0 : (0 : Rat) ≤ 1/2 + ((dx : Int) : Rat) * (((dy : Rat) - 1/2) / ((dx : Rat) - 1/2)) := by
    push_cast
    nlinarith
  rw [rndI, jsTrunc_of_nonneg hx0]
  have key : ((dx : Int) : Rat) * (((dy : Rat) - 1/2) / ((dx : Rat) - 1/2)) < (dy : Rat) + 1/2 := by
    push_cast
    rw [← mul_div_assoc, div_lt_iff hden]
    nlinarith
  have hlt : 1/2 + ((dx : Int) : Rat) * (((dy : Rat) - 1/2) / ((dx : Rat) - 1/2)) <
      ((dy + 1 : Int) : Rat) := by
    push_cast
    push_cast at key
    linarith
  exact Int.lt_add_one_iff.mp (Int.floor_lt.mpr hlt)

/-- The gap lemma: after a shadow split with end slope (h-1/2)/(dx+1/2), any
later start slope is at least (h+1/2)/(dx-1/2), and at every deeper column the
rounded rows of the two slopes are separated by at least one. -/
theorem gap_lemma {dx : Nat} {h col : Int} (hdx : 1 ≤ dx) (hh1 : 1 ≤ h)
    (hhx : h ≤ (dx : Int)) (hcol : (dx : Int) + 1 ≤ col) :
    rndI col (fovSlope ((dx : Rat) + 1/2) ((h : Rat) - 1/2)) + 1 ≤
    rndI col (fovSlope ((dx : Rat) - 1/2) ((h : Rat) + 1/2)) := by
  have hdxq : (1 : Rat) ≤ (dx : Rat) := by exact_mod_cast hdx
  have hhq : (1 : Rat) ≤ (h : Rat) := by exact_mod_cast hh1
  have hhxq : (h : Rat) ≤ (dx : Rat) := by exact_mod_cast hhx
  have hcolq : (dx : Rat) + 1 ≤ (col : Rat) := by exact_mod_cast hcol
  have hdenp : (0 : Rat) < (dx : Rat) + 1/2 := by linarith
  have hdenm : (0 : Rat) < (dx : Rat) - 1/2 := by linarith
  rw [fovSlope_posden (by rw [FLT_EPSILON]; norm_num; linarith),
    fovSlope_posden (by rw [FLT_EPSILON]; norm_num; linarith)]
  have hstep : (col : Rat) * (((h : Rat) - 1/2) / ((dx : Rat) + 1/2)) + 1 ≤
      (col : Rat) * (((h : Rat) + 1/2) / ((dx : Rat) - 1/2)) := by
    rw [← mul_div_assoc, ← mul_div_assoc, div_add' _ _ _ (ne_of_gt hdenp),
      div_le_div_iff hdenp hdenm]
    nlinarith [mul_le_mul hcolq (show (1 : Rat) + (dx : Rat) ≤ (h : Rat) + (dx : Rat) by
      linarith) (by linarith) (by linarith)]
  have ha0 : (0 : Rat) ≤ 1/2 + (col : Rat) * (((h : Rat) - 1/2) / ((dx : Rat) + 1/2)) := by
    have hq1 : (0 : Rat) ≤ ((h : Rat) - 1/2) / ((dx : Rat) + 1/2) :=
      div_nonneg (by linarith) (le_of_lt hdenp)
    nlinarith
  have hb0 : (0 : Rat) ≤ 1/2 + (col : Rat) * (((h : Rat) + 1/2) / ((dx : Rat) - 1/2)) := by
    have hq2 : (0 : Rat) ≤ ((h : Rat) + 1/2) / ((dx : Rat) - 1/2) :=
      div_nonneg (by linarith) (le_of_lt hdenm)
    nlinarith
  rw [rndI, rndI, jsTrunc_of_nonneg ha0, jsTrunc_of_nonneg hb0]
  have : ⌊1/2 + (col : Rat) * (((h : Rat) - 1/2) / ((dx : Rat) + 1/2))⌋ + 1 =
      ⌊1/2 + (col : Rat) * (((h : Rat) - 1/2) / ((dx : Rat) + 1/2)) + 1⌋ := by
    rw [Int.floor_add_one]
  rw [this]
  exact Int.floor_le_floor (by linarith)



theorem queried_append (l1 l2 : List Event) :
    queried (l1 ++ l2) = queried l1 ++ queried l2 := List.filterMap_append l1 l2 _

theorem visCR_nil (c : Ctx) : visCR c [] = [] := rfl

theorem visCR_append (c : Ctx) (l1 l2 : List Event) :
    visCR c (l1 ++ l2) = visCR c l1 ++ visCR c l2 := by
  rw [visCR, visCR, visCR, queried_append, List.map_append]

theorem visCR_cons_query (c : Ctx) (x y : Int) (b : Bool) (l : List Event) :
    visCR c (Event.query x y b :: l) =
      (colOf c (x, y), rowOf c (x, y)) :: visCR c l := rfl

theorem visCR_cons_apply (c : Ctx) (x y : Int) (l : List Event) :
    visCR c (Event.apply x y :: l) = visCR c l := rfl

theorem visCR_cons_call (c : Ctx) (d : Nat) (s e : Rat) (l : List Event) :
    visCR c (Event.call d s e :: l) = visCR c l := rfl

theorem visCR_cons_upd (c : Ctx) (s e : Rat) (l : List Event) :
    visCR c (Event.upd s e :: l) = visCR c l := rfl

/-- visCR of the opaque branch of the dy loop. -/
theorem visCR_scan_blocked (c : Ctx) (hx : c.signx = 1 ∨ c.signx = -1)
    (hy : c.signy = 1 ∨ c.signy = -1) (dx : Nat) (e : Rat)
    (split : Rat → Rat → List Event) (dy : Int) (rest : List Int)
    (prev : Int) (s : Rat)
    (hop : c.st.isOpaque (tileOf c dx dy).1 (tileOf c dx dy).2 = true) :
    visCR c (scanRows c dx e split (dy :: rest) prev s) =
      ((dx : Int), dy) ::
        (visCR c (if prev == 0 then
            split s (fovSlope ((dx : Rat) + 1/2) ((dy : Rat) - 1/2)) else []) ++
          visCR c (scanRows c dx e split rest 1 s)) := by
  simp only [scanRows]
  rw [if_pos hop, visCR_cons_query, visCR_append, visCR_append]
  have hA : visCR c (if c.st.opaqApply && (c.signy == 1 || 0 < dy)
      then [Event.apply (tileOf c dx dy).1 (tileOf c dx dy).2] else []) = [] := by
    split_ifs <;> rfl
  rw [hA, List.nil_append]
  congr 1
  · show ((colOf c (tileOf c dx dy), rowOf c (tileOf c dx dy)) : Int × Int) = _
    rw [colOf_tileOf c hx, rowOf_tileOf c hy]

/-- visCR of the clear branch of the dy loop. -/
theorem visCR_scan_clear (c : Ctx) (hx : c.signx = 1 ∨ c.signx = -1)
    (hy : c.signy = 1 ∨ c.signy = -1) (dx : Nat) (e : Rat)
    (split : Rat → Rat → List Event) (dy : Int) (rest : List Int)
    (prev : Int) (s : Rat)
    (hop : ¬ (c.st.isOpaque (tileOf c dx dy).1 (tileOf c dx dy).2 = true)) :
    visCR c (scanRows c dx e split (dy :: rest) prev s) =
      ((dx : Int), dy) ::
        visCR c (scanRows c dx e split rest 0
          (if prev == 1 then fovSlope ((dx : Rat) - 1/2) ((dy : Rat) - 1/2) else s)) := by
  simp only [scanRows]
  rw [if_neg hop, visCR_cons_query, visCR_append, visCR_append]
  have hA : visCR c (if (c.signy == 1 || 0 < dy) = true
      then [Event.apply (tileOf c dx dy).1 (tileOf c dx dy).2] else []) = [] := by
    split_ifs <;> rfl
  have hU : visCR c (if prev == 1 then
      [Event.upd (if prev == 1 then fovSlope ((dx : Rat) - 1/2) ((dy : Rat) - 1/2) else s) e]
      else []) = [] := by
    split_ifs <;> rfl
  rw [hA, hU, List.nil_append, List.nil_append]
  congr 1
  show ((colOf c (tileOf c dx dy), rowOf c (tileOf c dx dy)) : Int × Int) = _
  rw [colOf_tileOf c hx, rowOf_tileOf c hy]

theorem scanState_blocked (c : Ctx) (dx : Nat) (dy : Int) (rest : List Int)
    (prev : Int) (s : Rat)
    (hop : c.st.isOpaque (tileOf c dx dy).1 (tileOf c dx dy).2 = true) :
    scanState c dx (dy :: rest) prev s = scanState c dx rest 1 s := by
  simp only [scanState]
  rw [if_pos hop]

theorem scanState_clear (c : Ctx) (dx : Nat) (dy : Int) (rest : List Int)
    (prev : Int) (s : Rat)
    (hop : ¬ (c.st.isOpaque (tileOf c dx dy).1 (tileOf c dx dy).2 = true)) :
    scanState c dx (dy :: rest) prev s = scanState c dx rest 0
      (if prev == 1 then fovSlope ((dx : Rat) - 1/2) ((dy : Rat) - 1/2) else s) := by
  simp only [scanState]
  rw [if_neg hop]

theorem le_fovSlope_den_minus {dx : Nat} {q v : Rat} (hdx : 1 ≤ dx)
    (h : q * ((dx : Rat) - 1/2) ≤ v) : q ≤ fovSlope ((dx : Rat) - 1/2) v := by
  have hdxq : (1 : Rat) ≤ (dx : Rat) := by exact_mod_cast hdx
  have hden : (0 : Rat) < (dx : Rat) - 1/2 := by linarith
  rw [fovSlope_posden (by rw [FLT_EPSILON]; norm_num; linarith)]
  rw [le_div_iff hden]
  exact h

theorem fovSlope_den_minus_nonneg {dx : Nat} {v : Rat} (hdx : 1 ≤ dx) (hv : 0 ≤ v) :
    0 ≤ fovSlope ((dx : Rat) - 1/2) v :=
  le_fovSlope_den_minus hdx (by rw [zero_mul]; exact hv)

theorem fovSlope_den_minus_mul {dx : Nat} (hdx : 1 ≤ dx) (v : Rat) :
    fovSlope ((dx : Rat) - 1/2) v * ((dx : Rat) - 1/2) = v := by
  have hdxq : (1 : Rat) ≤ (dx : Rat) := by exact_mod_cast hdx
  have hden : (0 : Rat) < (dx : Rat) - 1/2 := by linarith
  rw [fovSlope_posden (by rw [FLT_EPSILON]; norm_num; linarith)]
  exact div_mul_cancel₀ _ (ne_of_gt hden)

/-- A start slope is dominated (in the denominator-cleared sense) by any row
strictly above its rounded row. -/
theorem s_mul_le {dx : Nat} {dy : Int} {s : Rat} (hdx : 1 ≤ dx) (hs0 : 0 ≤ s)
    (h : rndI (dx : Int) s + 1 ≤ dy) :
    s * ((dx : Rat) - 1/2) ≤ (dy : Rat) - 1/2 := by
  have hdxq : (1 : Rat) ≤ (dx : Rat) := by exact_mod_cast hdx
  have hdyq : (rndI (dx : Int) s : Rat) + 1 ≤ (dy : Rat) := by exact_mod_cast h
  have hg : 1/2 + ((dx : Int) : Rat) * s - 1 < (rndI (dx : Int) s : Rat) := by
    rw [rndI]
    exact jsTrunc_gt (by
      have h0 : (0 : Rat) ≤ ((dx : Int) : Rat) := by push_cast; positivity
      nlinarith)
  push_cast at hg
  nlinarith



/-- The dy-loop invariant of fov_octant's visit discipline: every visit of the
loop and of its shadow-split subcalls is either an own-column row of the scan
list or a deeper-column visit inside the current slope window; the decoded
visit list is per-column strictly increasing in trace order; the start slope
never decreases; and once the loop has ended clear, all subcall visits sit
strictly below the final start slope's row at their column. -/
theorem scanRows_vis (c : Ctx) (hx : c.signx = 1 ∨ c.signx = -1)
    (hy : c.signy = 1 ∨ c.signy = -1)
    (dx : Nat) (hdx : 1 ≤ dx) (e : Rat) (he0 : 0 ≤ e)
    (split : Rat → Rat → List Event)
    (hsplit : ∀ s' e', 0 ≤ s' → 0 ≤ e' → e' ≤ 1 →
        GoodGo c (dx + 1) s' e' (split s' e')) :
    ∀ (rows : List Int) (prev : Int) (s base : Rat),
      0 ≤ s →
      List.Pairwise (· < ·) rows →
      (∀ dy ∈ rows, 0 ≤ dy ∧ dy ≤ (dx : Int) ∧ dy ≤ rndI (dx : Int) e) →
      (∀ dy ∈ rows, rndI (dx : Int) s ≤ dy) →
      (prev ≠ -1 → ∀ dy ∈ rows, rndI (dx : Int) s + 1 ≤ dy) →
      (prev = 1 → 0 ≤ base ∧
        ∀ dy ∈ rows, base * ((dx : Rat) - 1/2) ≤ (dy : Rat) - 1/2) →
      (∀ pr ∈ visCR c (scanRows c dx e split rows prev s),
         (pr.1 = (dx : Int) ∧ pr.2 ∈ rows) ∨
         ((dx : Int) + 1 ≤ pr.1 ∧
           rndI pr.1 (if prev = 1 then base else s) ≤ pr.2 ∧
           pr.2 ≤ rndI pr.1 e)) ∧
      visOrdered (visCR c (scanRows c dx e split rows prev s)) ∧
      s ≤ (scanState c dx rows prev s).2 ∧
      (prev = 1 → (scanState c dx rows prev s).1 = 0 →
         base ≤ (scanState c dx rows prev s).2) ∧
      ((scanState c dx rows prev s).1 = 0 →
         ∀ pr ∈ visCR c (scanRows c dx e split rows prev s),
           (dx : Int) + 1 ≤ pr.1 →
           pr.2 + 1 ≤ rndI pr.1 (scanState c dx rows prev s).2) := by
  intro rows
  induction rows with
  | nil =>
    intro prev s base hs0 hpw hbnd hweak hstrong hbase
    refine ⟨?_, ?_, ?_, ?_, ?_⟩
    · intro pr hpr
      simp [scanRows, visCR_nil] at hpr
    · simp [scanRows, visCR_nil, visOrdered]
    · simp [scanState]
    · intro hp1 hfin
      simp [scanState] at hfin
      omega
    · intro hfin pr hpr
      simp [scanRows, visCR_nil] at hpr
  | cons dy rest ih =>
    intro prev s base hs0 hpw hbnd hweak hstrong hbase
    obtain ⟨hdy0, hdyx, hdye⟩ := hbnd dy (List.mem_cons_self _ _)
    have hdyw : rndI (dx : Int) s ≤ dy := hweak dy (List.mem_cons_self _ _)
    have hrnd0 : 0 ≤ rndI (dx : Int) s := jsTrunc_nonneg (by
      have h0 : (0 : Rat) ≤ ((dx : Int) : Rat) := by push_cast; positivity
      nlinarith)
    have hrest_bnd : ∀ d ∈ rest, 0 ≤ d ∧ d ≤ (dx : Int) ∧ d ≤ rndI (dx : Int) e :=
      fun d hd => hbnd d (List.mem_cons_of_mem _ hd)
    have hrest_lt : ∀ d ∈ rest, dy < d := (List.pairwise_cons.mp hpw).1
    have hpw2 : List.Pairwise (· < ·) rest := (List.pairwise_cons.mp hpw).2
    have hrest_weak : ∀ d ∈ rest, rndI (dx : Int) s ≤ d := by
      intro d hd
      have := hrest_lt d hd
      omega
    have hrest_strong : ∀ d ∈ rest, rndI (dx : Int) s + 1 ≤ d := by
      intro d hd
      have := hrest_lt d hd
      omega
    have hcol_dx_nonneg : (0 : Int) ≤ (dx : Int) := Int.natCast_nonneg dx
    by_cases hop : c.st.isOpaque (tileOf c dx dy).1 (tileOf c dx dy).2 = true
    · -- opaque row: possible shadow split, prev becomes 1, slope kept
      rw [visCR_scan_blocked c hx hy dx e split dy rest prev s hop,
        scanState_blocked c dx dy rest prev s hop]
      -- the lower-slope certificate for the recursive call
      by_cases hp1 : prev = 1
      · -- no split possible (prev = 1 ≠ 0)
        rw [if_neg (by simp [hp1])]
        rw [visCR_nil, List.nil_append]
        have hbase1 := hbase hp1
        have hbase2_fact : 0 ≤ base ∧
            ∀ d ∈ rest, base * ((dx : Rat) - 1/2) ≤ (d : Rat) - 1/2 :=
          ⟨hbase1.1, fun d hd => hbase1.2 d (List.mem_cons_of_mem _ hd)⟩
        obtain ⟨ihO1, ihOrd, ihO3, ihO3c, ihO4⟩ :=
          ih 1 s base hs0 hpw2 hrest_bnd hrest_weak (fun _ => hrest_strong)
            (fun _ => hbase2_fact)
        refine ⟨?_, ?_, ?_, ?_, ?_⟩
        · intro pr hpr
          rcases List.mem_cons.mp hpr with rfl | hpr2
          · exact Or.inl ⟨rfl, List.mem_cons_self _ _⟩
          · rcases ihO1 pr hpr2 with ⟨h1, h2⟩ | ⟨h1, h2, h3⟩
            · exact Or.inl ⟨h1, List.mem_cons_of_mem _ h2⟩
            · rw [if_pos (rfl : (1:Int) = 1)] at h2
              rw [if_pos hp1]
              exact Or.inr ⟨h1, h2, h3⟩
        · refine List.Pairwise.cons ?_ ?_
          · intro b hb
            rcases ihO1 b hb with ⟨h1, h2⟩ | ⟨h1, _, _⟩
            · exact Or.inr (by
                show dy < b.2
                exact hrest_lt b.2 h2)
            · exact Or.inl (by omega)
          · exact ihOrd
        · exact ihO3
        · intro _ hfin
          exact ihO3c rfl hfin
        · intro hfin pr hpr hcolpr
          rcases List.mem_cons.mp hpr with rfl | hpr2
          · omega
          · exact ihO4 hfin pr hpr2 hcolpr
      · -- prev ≠ 1
        have h1dy_of : prev ≠ -1 → 1 ≤ dy := by
          intro hne
          have := hstrong hne dy (List.mem_cons_self _ _)
          omega
        by_cases hp0 : prev = 0
        · -- shadow split occurs
          rw [if_pos (by simp [hp0])]
          have h1dy : 1 ≤ dy := h1dy_of (by rw [hp0]; decide)
          have hsb := splitSlope_bounds h1dy hdyx
          have hg := hsplit s (fovSlope ((dx : Rat) + 1/2) ((dy : Rat) - 1/2))
            hs0 hsb.1 hsb.2
          have heh_le : fovSlope ((dx : Rat) + 1/2) ((dy : Rat) - 1/2) ≤ e :=
            splitSlope_le_e hdx h1dy he0 hdye
          -- the new lower-slope certificate
          have hb2_nonneg : 0 ≤ fovSlope ((dx : Rat) - 1/2) ((dy : Rat) + 1/2) :=
            fovSlope_den_minus_nonneg hdx (by
              have : (1 : Rat) ≤ (dy : Rat) := by exact_mod_cast h1dy
              linarith)
          have hb2_fact : 0 ≤ fovSlope ((dx : Rat) - 1/2) ((dy : Rat) + 1/2) ∧
              ∀ d ∈ rest, fovSlope ((dx : Rat) - 1/2) ((dy : Rat) + 1/2) *
                ((dx : Rat) - 1/2) ≤ (d : Rat) - 1/2 := by
            refine ⟨hb2_nonneg, ?_⟩
            intro d hd
            rw [fovSlope_den_minus_mul hdx]
            have : dy + 1 ≤ d := hrest_lt d hd
            have : (dy : Rat) + 1 ≤ (d : Rat) := by exact_mod_cast this
            linarith
          obtain ⟨ihO1, ihOrd, ihO3, ihO3c, ihO4⟩ :=
            ih 1 s (fovSlope ((dx : Rat) - 1/2) ((dy : Rat) + 1/2)) hs0 hpw2
              hrest_bnd hrest_weak (fun _ => hrest_strong) (fun _ => hb2_fact)
          have hs_le_b2 : s ≤ fovSlope ((dx : Rat) - 1/2) ((dy : Rat) + 1/2) := by
            apply le_fovSlope_den_minus hdx
            have := s_mul_le hdx hs0 (hstrong (by rw [hp0]; decide) dy
              (List.mem_cons_self _ _))
            linarith
          refine ⟨?_, ?_, ?_, ?_, ?_⟩
          · intro pr hpr
            rcases List.mem_cons.mp hpr with rfl | hpr2
            · exact Or.inl ⟨rfl, List.mem_cons_self _ _⟩
            rcases List.mem_append.mp hpr2 with hS | hR
            · obtain ⟨h1, h2, h3⟩ := hg.1 pr hS
              have h1' : (dx : Int) + 1 ≤ pr.1 := by push_cast at h1; omega
              refine Or.inr ⟨h1', ?_, ?_⟩
              · rw [if_neg hp1]
                exact h2
              · exact le_trans h3 (rndI_mono_slope (by omega) heh_le)
            · rcases ihO1 pr hR with ⟨h1, h2⟩ | ⟨h1, h2, h3⟩
              · exact Or.inl ⟨h1, List.mem_cons_of_mem _ h2⟩
              · rw [if_pos (rfl : (1:Int) = 1)] at h2
                refine Or.inr ⟨h1, ?_, h3⟩
                rw [if_neg hp1]
                exact le_trans (rndI_mono_slope (by omega) hs_le_b2) h2
          · refine List.Pairwise.cons ?_ ?_
            · intro b hb
              rcases List.mem_append.mp hb with hS | hR
              · obtain ⟨h1, _, _⟩ := hg.1 b hS
                exact Or.inl (by push_cast at h1; omega)
              · rcases ihO1 b hR with ⟨h1, h2⟩ | ⟨h1, _, _⟩
                · exact Or.inr (by
                    show dy < b.2
                    exact hrest_lt b.2 h2)
                · exact Or.inl (by omega)
            · rw [List.pairwise_append]
              refine ⟨hg.2, ihOrd, ?_⟩
              intro a ha b hb
              obtain ⟨ha1, _, ha3⟩ := hg.1 a ha
              have ha1' : (dx : Int) + 1 ≤ a.1 := by push_cast at ha1; omega
              rcases ihO1 b hb with ⟨hb1, _⟩ | ⟨hb1, hb2, _⟩
              · exact Or.inl (by omega)
              · by_cases hcol : a.1 = b.1
                · refine Or.inr ?_
                  rw [if_pos (rfl : (1:Int) = 1)] at hb2
                  have hgap := gap_lemma hdx h1dy hdyx ha1'
                  rw [hcol] at ha3 hgap
                  omega
                · exact Or.inl hcol
          · exact ihO3
          · intro hp1' _
            exact absurd hp1' hp1
          · intro hfin pr hpr hcolpr
            rcases List.mem_cons.mp hpr with rfl | hpr2
            · omega
            rcases List.mem_append.mp hpr2 with hS | hR
            · obtain ⟨_, _, h3⟩ := hg.1 pr hS
              have hgap := gap_lemma hdx h1dy hdyx hcolpr
              have hb2fin := ihO3c rfl hfin
              have := rndI_mono_slope (show (0 : Int) ≤ pr.1 by omega) hb2fin
              omega
            · exact ihO4 hfin pr hR hcolpr
        · -- prev = -1: no split
          rw [if_neg (by simp [hp0])]
          rw [visCR_nil, List.nil_append]
          have hb2_fact : 0 ≤ s ∧
              ∀ d ∈ rest, s * ((dx : Rat) - 1/2) ≤ (d : Rat) - 1/2 :=
            ⟨hs0, fun d hd => s_mul_le hdx hs0 (hrest_strong d hd)⟩
          obtain ⟨ihO1, ihOrd, ihO3, ihO3c, ihO4⟩ :=
            ih 1 s s hs0 hpw2 hrest_bnd hrest_weak (fun _ => hrest_strong)
              (fun _ => hb2_fact)
          refine ⟨?_, ?_, ?_, ?_, ?_⟩
          · intro pr hpr
            rcases List.mem_cons.mp hpr with rfl | hpr2
            · exact Or.inl ⟨rfl, List.mem_cons_self _ _⟩
            · rcases ihO1 pr hpr2 with ⟨h1, h2⟩ | ⟨h1, h2, h3⟩
              · exact Or.inl ⟨h1, List.mem_cons_of_mem _ h2⟩
              · rw [if_pos (rfl : (1:Int) = 1)] at h2
                rw [if_neg hp1]
                exact Or.inr ⟨h1, h2, h3⟩
          · refine List.Pairwise.cons ?_ ?_
            · intro b hb
              rcases ihO1 b hb with ⟨h1, h2⟩ | ⟨h1, _, _⟩
              · exact Or.inr (by
                  show dy < b.2
                  exact hrest_lt b.2 h2)
              · exact Or.inl (by omega)
            · exact ihOrd
          · exact ihO3
          · intro hp1' _
            exact absurd hp1' hp1
          · intro hfin pr hpr hcolpr
            rcases List.mem_cons.mp hpr with rfl | hpr2
            · omega
            · exact ihO4 hfin pr hpr2 hcolpr
    · -- clear row: possible slope update, prev becomes 0
      rw [visCR_scan_clear c hx hy dx e split dy rest prev s hop,
        scanState_clear c dx dy rest prev s hop]
      by_cases hp1 : prev = 1
      · rw [if_pos (by simp [hp1])]
        have h1dy : 1 ≤ dy := by
          have := hstrong (by rw [hp1]; decide) dy (List.mem_cons_self _ _)
          omega
        have hs_le_s2 : s ≤ fovSlope ((dx : Rat) - 1/2) ((dy : Rat) - 1/2) :=
          updSlope_ge_s hdx hs0 (hstrong (by rw [hp1]; decide) dy
            (List.mem_cons_self _ _))
        have hs2_0 : 0 ≤ fovSlope ((dx : Rat) - 1/2) ((dy : Rat) - 1/2) :=
          le_trans hs0 hs_le_s2
        have hrnd_s2 : rndI (dx : Int) (fovSlope ((dx : Rat) - 1/2) ((dy : Rat) - 1/2)) ≤ dy :=
          rnd_updSlope_le hdx h1dy hdyx
        have hbase_le_s2 : base ≤ fovSlope ((dx : Rat) - 1/2) ((dy : Rat) - 1/2) :=
          le_fovSlope_den_minus hdx ((hbase hp1).2 dy (List.mem_cons_self _ _))
        obtain ⟨ihO1, ihOrd, ihO3, ihO3c, ihO4⟩ :=
          ih 0 (fovSlope ((dx : Rat) - 1/2) ((dy : Rat) - 1/2)) base hs2_0 hpw2
            hrest_bnd
            (fun d hd => by have := hrest_lt d hd; omega)
            (fun _ d hd => by have := hrest_lt d hd; omega)
            (fun h => absurd h (by decide))
        refine ⟨?_, ?_, ?_, ?_, ?_⟩
        · intro pr hpr
          rcases List.mem_cons.mp hpr with rfl | hpr2
          · exact Or.inl ⟨rfl, List.mem_cons_self _ _⟩
          · rcases ihO1 pr hpr2 with ⟨h1, h2⟩ | ⟨h1, h2, h3⟩
            · exact Or.inl ⟨h1, List.mem_cons_of_mem _ h2⟩
            · rw [if_neg (by decide : ¬ (0:Int) = 1)] at h2
              rw [if_pos hp1]
              refine Or.inr ⟨h1, ?_, h3⟩
              exact le_trans (rndI_mono_slope (by omega) hbase_le_s2) h2
        · refine List.Pairwise.cons ?_ ?_
          · intro b hb
            rcases ihO1 b hb with ⟨h1, h2⟩ | ⟨h1, _, _⟩
            · exact Or.inr (by
                show dy < b.2
                exact hrest_lt b.2 h2)
            · exact Or.inl (by omega)
          · exact ihOrd
        · exact le_trans hs_le_s2 ihO3
        · intro _ _
          exact le_trans hbase_le_s2 ihO3
        · intro hfin pr hpr hcolpr
          rcases List.mem_cons.mp hpr with rfl | hpr2
          · omega
          · exact ihO4 hfin pr hpr2 hcolpr
      · rw [if_neg (by simp [hp1])]
        obtain ⟨ihO1, ihOrd, ihO3, ihO3c, ihO4⟩ :=
          ih 0 s base hs0 hpw2 hrest_bnd hrest_weak
            (fun _ d hd => by have := hrest_lt d hd; omega)
            (fun h => absurd h (by decide))
        refine ⟨?_, ?_, ?_, ?_, ?_⟩
        · intro pr hpr
          rcases List.mem_cons.mp hpr with rfl | hpr2
          · exact Or.inl ⟨rfl, List.mem_cons_self _ _⟩
          · rcases ihO1 pr hpr2 with ⟨h1, h2⟩ | ⟨h1, h2, h3⟩
            · exact Or.inl ⟨h1, List.mem_cons_of_mem _ h2⟩
            · rw [if_neg (by decide : ¬ (0:Int) = 1)] at h2
              rw [if_neg hp1]
              exact Or.inr ⟨h1, h2, h3⟩
        · refine List.Pairwise.cons ?_ ?_
          · intro b hb
            rcases ihO1 b hb with ⟨h1, h2⟩ | ⟨h1, _, _⟩
            · exact Or.inr (by
                show dy < b.2
                exact hrest_lt b.2 h2)
            · exact Or.inl (by omega)
          · exact ihOrd
        · exact ihO3
        · intro hp1' _
          exact absurd hp1' hp1
        · intro hfin pr hpr hcolpr
          rcases List.mem_cons.mp hpr with rfl | hpr2
          · omega
          · exact ihO4 hfin pr hpr2 hcolpr



theorem rowHiPre_le_rnd (c : Ctx) (dx : Nat) (e : Rat) :
    rowHiPre c dx e ≤ rndI (dx : Int) e := by
  have hcast : ((dx : Int) : Rat) = (dx : Rat) := by push_cast; ring
  rw [rowHiPre, rndI, hcast]
  split_ifs <;> omega

theorem rowHi_le_pre {c : Ctx} {dx : Nat} {e : Rat} (he0 : 0 ≤ e)
    (hnc : ¬ hCollapsed c dx e) : rowHi c dx e ≤ rowHiPre c dx e := by
  have hpre := @rowHiPre_neg_one_le c dx e he0
  rw [rowHi]
  split_ifs with h
  · have hne : shapeH c.st.shape c.radius dx ≠ 0 := fun h0 => hnc ⟨h, h0⟩
    rcases abs_cases (rowHiPre c dx e) with ⟨heq, _⟩ | ⟨heq, _⟩ <;>
      rw [heq] at h <;> omega
  · exact le_refl _

/-- The per-invocation visit discipline of fov_octant: starting at column
dxArg with slope window [s, e], every consulted tile decodes to a column at
least dxArg with its row between the rounded start and end rows of its
column, and the decoded visit sequence is per-column strictly increasing. -/
theorem go_vis (c : Ctx) (hx : c.signx = 1 ∨ c.signx = -1)
    (hy : c.signy = 1 ∨ c.signy = -1) :
    ∀ (fuel dxArg : Nat) (s e : Rat), 1 ≤ dxArg → 0 ≤ s → 0 ≤ e → e ≤ 1 →
      GoodGo c dxArg s e (go c fuel dxArg s e) := by
  intro fuel
  induction fuel with
  | zero =>
    intro dxArg s e _ _ _ _
    refine ⟨?_, ?_⟩
    · intro pr hpr
      rw [go_zero] at hpr
      exact absurd hpr (by simp [visCR_nil])
    · rw [go_zero]
      exact List.Pairwise.nil
  | succ n ih =>
    intro dxArg s e hdx1 hs0 he0 he1
    have hremap : (if dxArg = 0 then 1 else dxArg) = dxArg := if_neg (by omega)
    by_cases hguard : dxArg = 0 ∨ dxArg ≤ c.radius
    swap
    · have hgoeq : go c (Nat.succ n) dxArg s e = [Event.call dxArg s e] := by
        simp only [go]
        rw [if_neg hguard]
      rw [hgoeq]
      refine ⟨?_, ?_⟩
      · intro pr hpr
        exact absurd hpr (by simp [visCR_cons_call, visCR_nil])
      · exact List.Pairwise.nil
    by_cases hcol : hCollapsed c dxArg e
    · have hgoeq : go c (Nat.succ n) dxArg s e = [Event.call dxArg s e] := by
        simp only [go, octColumn]
        rw [hremap, if_pos hguard, if_pos hcol]
      rw [hgoeq]
      refine ⟨?_, ?_⟩
      · intro pr hpr
        exact absurd hpr (by simp [visCR_cons_call, visCR_nil])
      · exact List.Pairwise.nil
    · have hgoeq : go c (Nat.succ n) dxArg s e =
          Event.call dxArg s e ::
            (scanRows c dxArg e (fun s' e' => go c n (dxArg + 1) s' e')
                (rowRange (rowLo dxArg s) (rowHi c dxArg e)) (-1) s ++
              (if (scanState c dxArg (rowRange (rowLo dxArg s) (rowHi c dxArg e))
                    (-1) s).1 == 0
                then go c n (dxArg + 1)
                  (scanState c dxArg (rowRange (rowLo dxArg s) (rowHi c dxArg e))
                    (-1) s).2 e
                else [])) := by
        simp only [go, octColumn]
        rw [hremap, if_pos hguard, if_neg hcol]
      rw [hgoeq]
      have hlo0 : 0 ≤ rowLo dxArg s := rowLo_nonneg hs0
      have hhile : rowHi c dxArg e ≤ (dxArg : Int) := rowHi_le hdx1 he0 he1
      have hhiprele : rowHi c dxArg e ≤ rndI (dxArg : Int) e :=
        le_trans (rowHi_le_pre he0 hcol) (rowHiPre_le_rnd c dxArg e)
      have hbnd : ∀ dy ∈ rowRange (rowLo dxArg s) (rowHi c dxArg e),
          0 ≤ dy ∧ dy ≤ (dxArg : Int) ∧ dy ≤ rndI (dxArg : Int) e := by
        intro dy hdy
        rw [mem_rowRange] at hdy
        exact ⟨le_trans hlo0 hdy.1, le_trans hdy.2 hhile, le_trans hdy.2 hhiprele⟩
      have hweak : ∀ dy ∈ rowRange (rowLo dxArg s) (rowHi c dxArg e),
          rndI (dxArg : Int) s ≤ dy := by
        intro dy hdy
        rw [mem_rowRange] at hdy
        rw [← rowLo_eq_rndI]
        exact hdy.1
      obtain ⟨O1, Ord, O3, O3c, O4⟩ :=
        scanRows_vis c hx hy dxArg hdx1 e he0 (fun s' e' => go c n (dxArg + 1) s' e')
          (fun s' e' hs' he' he1' => ih (dxArg + 1) s' e' (by omega) hs' he' he1')
          (rowRange (rowLo dxArg s) (rowHi c dxArg e)) (-1) s s hs0
          (rowRange_pairwise _ _) hbnd hweak
          (fun hc => absurd rfl hc) (fun hc => absurd hc (by decide))
      by_cases htail : ((scanState c dxArg (rowRange (rowLo dxArg s) (rowHi c dxArg e))
          (-1) s).1 == 0) = true
      · rw [if_pos htail]
        have hfin0 : (scanState c dxArg (rowRange (rowLo dxArg s) (rowHi c dxArg e))
            (-1) s).1 = 0 := by simpa using htail
        have hfin2_0 : 0 ≤ (scanState c dxArg (rowRange (rowLo dxArg s)
            (rowHi c dxArg e)) (-1) s).2 := le_trans hs0 O3
        have htg := ih (dxArg + 1)
          (scanState c dxArg (rowRange (rowLo dxArg s) (rowHi c dxArg e)) (-1) s).2 e
          (by omega) hfin2_0 he0 he1
        refine ⟨?_, ?_⟩
        · intro pr hpr
          rw [visCR_cons_call, visCR_append] at hpr
          rcases List.mem_append.mp hpr with hS | hT
          · rcases O1 pr hS with ⟨h1, h2⟩ | ⟨h1, h2, h3⟩
            · rw [mem_rowRange] at h2
              refine ⟨le_of_eq h1.symm, ?_, ?_⟩
              · rw [h1, ← rowLo_eq_rndI]
                exact h2.1
              · rw [h1]
                exact le_trans h2.2 hhiprele
            · rw [ite_self] at h2
              exact ⟨by omega, h2, h3⟩
          · obtain ⟨h1, h2, h3⟩ := htg.1 pr hT
            have h1' : (dxArg : Int) + 1 ≤ pr.1 := by push_cast at h1; omega
            refine ⟨by omega, ?_, h3⟩
            exact le_trans (rndI_mono_slope (by omega) O3) h2
        · rw [visCR_cons_call, visCR_append]
          refine List.pairwise_append.mpr ⟨Ord, htg.2, ?_⟩
          intro a ha b hb
          obtain ⟨hb1, hb2, _⟩ := htg.1 b hb
          have hb1' : (dxArg : Int) + 1 ≤ b.1 := by push_cast at hb1; omega
          rcases O1 a ha with ⟨h1, _⟩ | ⟨h1, _, _⟩
          · exact Or.inl (by omega)
          · by_cases hcc : a.1 = b.1
            · refine Or.inr ?_
              have h4 := O4 hfin0 a ha h1
              rw [hcc] at h4
              omega
            · exact Or.inl hcc
      · rw [if_neg htail, List.append_nil]
        refine ⟨?_, ?_⟩
        · intro pr hpr
          rw [visCR_cons_call] at hpr
          rcases O1 pr hpr with ⟨h1, h2⟩ | ⟨h1, h2, h3⟩
          · rw [mem_rowRange] at h2
            refine ⟨le_of_eq h1.symm, ?_, ?_⟩
            · rw [h1, ← rowLo_eq_rndI]
              exact h2.1
            · rw [h1]
              exact le_trans h2.2 hhiprele
          · rw [ite_self] at h2
            exact ⟨by omega, h2, h3⟩
        · rw [visCR_cons_call]
          exact Ord



theorem applied_cons_query (x y : Int) (b : Bool) (l : List Event) :
    applied (Event.query x y b :: l) = applied l := rfl

theorem applied_cons_apply (x y : Int) (l : List Event) :
    applied (Event.apply x y :: l) = (x, y) :: applied l := rfl

theorem applied_cons_call (d : Nat) (s e : Rat) (l : List Event) :
    applied (Event.call d s e :: l) = applied l := rfl

theorem queried_cons_query (x y : Int) (b : Bool) (l : List Event) :
    queried (Event.query x y b :: l) = (x, y) :: queried l := rfl

/-- Within the dy loop, the applied tiles form a subsequence of the queried
tiles: each row's apply (if any) immediately follows its own query. -/
theorem scanRows_applied_sublist (c : Ctx) (dx : Nat) (e : Rat)
    (split : Rat → Rat → List Event)
    (hsplit : ∀ s' e', List.Sublist (applied (split s' e')) (queried (split s' e'))) :
    ∀ (rows : List Int) (prev : Int) (s : Rat),
      List.Sublist (applied (scanRows c dx e split rows prev s))
        (queried (scanRows c dx e split rows prev s)) := by
  intro rows
  induction rows with
  | nil =>
    intro prev s
    simp [scanRows, applied, queried]
  | cons dy rest ih =>
    intro prev s
    simp only [scanRows]
    by_cases hop : c.st.isOpaque (tileOf c dx dy).1 (tileOf c dx dy).2 = true
    · rw [if_pos hop]
      rw [applied_cons_query, queried_cons_query, applied_append, queried_append,
        applied_append, queried_append]
      have hqa : queried (if c.st.opaqApply && (c.signy == 1 || 0 < dy)
          then [Event.apply (tileOf c dx dy).1 (tileOf c dx dy).2] else []) = [] := by
        split_ifs <;> rfl
      have hS : List.Sublist
          (applied (if prev == 0 then
            split s (fovSlope ((dx : Rat) + 1/2) ((dy : Rat) - 1/2)) else []))
          (queried (if prev == 0 then
            split s (fovSlope ((dx : Rat) + 1/2) ((dy : Rat) - 1/2)) else [])) := by
        split_ifs
        · exact hsplit _ _
        · exact List.nil_sublist _
      rw [hqa, List.nil_append]
      by_cases happ : (c.st.opaqApply && (c.signy == 1 || 0 < dy)) = true
      · rw [if_pos happ]
        rw [applied_cons_apply]
        show List.Sublist (((tileOf c dx dy).1, (tileOf c dx dy).2) :: ([] ++ _)) _
        rw [List.nil_append]
        exact List.Sublist.cons₂ _ (List.Sublist.append hS (ih 1 s))
      · rw [if_neg happ]
        show List.Sublist (applied ([] : List Event) ++ _) _
        rw [show applied ([] : List Event) = [] from rfl, List.nil_append]
        exact List.Sublist.cons _ (List.Sublist.append hS (ih 1 s))
    · rw [if_neg hop]
      rw [applied_cons_query, queried_cons_query, applied_append, queried_append,
        applied_append, queried_append]
      have hqa : queried (if (c.signy == 1 || 0 < dy) = true
          then [Event.apply (tileOf c dx dy).1 (tileOf c dx dy).2] else []) = [] := by
        split_ifs <;> rfl
      have hqu : queried (if prev == 1 then
          [Event.upd (if prev == 1 then
            fovSlope ((dx : Rat) - 1/2) ((dy : Rat) - 1/2) else s) e] else []) = [] := by
        split_ifs <;> rfl
      have hau : applied (if prev == 1 then
          [Event.upd (if prev == 1 then
            fovSlope ((dx : Rat) - 1/2) ((dy : Rat) - 1/2) else s) e] else []) = [] := by
        split_ifs <;> rfl
      rw [hqa, hqu, hau, List.nil_append, List.nil_append, List.nil_append]
      by_cases happ : (c.signy == 1 || 0 < dy) = true
      · rw [if_pos happ]
        rw [applied_cons_apply]
        show List.Sublist (((tileOf c dx dy).1, (tileOf c dx dy).2) :: ([] ++ _)) _
        rw [List.nil_append]
        exact List.Sublist.cons₂ _ (ih 0 _)
      · rw [if_neg happ]
        show List.Sublist (applied ([] : List Event) ++ _) _
        rw [show applied ([] : List Event) = [] from rfl, List.nil_append]
        exact List.Sublist.cons _ (ih 0 _)

theorem queried_cons_call (d : Nat) (s e : Rat) (l : List Event) :
    queried (Event.call d s e :: l) = queried l := rfl

/-- Over a whole octant pass, the applied tiles form a subsequence of the
queried tiles. -/
theorem go_applied_sublist (c : Ctx) :
    ∀ (fuel dxArg : Nat) (s e : Rat),
      List.Sublist (applied (go c fuel dxArg s e)) (queried (go c fuel dxArg s e)) := by
  intro fuel
  induction fuel with
  | zero =>
    intro dxArg s e
    simp [go_zero, applied, queried]
  | succ n ih =>
    intro dxArg s e
    have hstep : ∀ (dx2 : Nat),
        List.Sublist (applied (octColumn c (go c n) dx2 s e))
          (queried (octColumn c (go c n) dx2 s e)) := by
      intro dx2
      simp only [octColumn]
      split_ifs with hcol hfin
      · simp [applied, queried]
      · rw [applied_append, queried_append]
        exact List.Sublist.append
          (scanRows_applied_sublist c dx2 e _ (fun s' e' => ih (dx2 + 1) s' e') _ (-1) s)
          (ih (dx2 + 1) _ e)
      · rw [applied_append, queried_append]
        exact List.Sublist.append
          (scanRows_applied_sublist c dx2 e _ (fun s' e' => ih (dx2 + 1) s' e') _ (-1) s)
          (by simp [applied, queried])
    simp only [go]
    rw [applied_cons_call, queried_cons_call]
    split_ifs with hguard hzero
    · exact hstep _
    · exact hstep _
    · simp [applied, queried]



/-- A single octant pass with slope window inside the unit interval never
applies the same tile twice. -/
theorem fovOctant_applied_nodup (c : Ctx) (hx : c.signx = 1 ∨ c.signx = -1)
    (hy : c.signy = 1 ∨ c.signy = -1) (dx : Nat) (hdx : 1 ≤ dx)
    (s e : Rat) (hs0 : 0 ≤ s) (he0 : 0 ≤ e) (he1 : e ≤ 1) :
    (applied (fovOctant c dx s e)).Nodup := by
  rw [fovOctant]
  have hg := go_vis c hx hy (c.radius + 2) dx s e hdx hs0 he0 he1
  have hnodup_vis : (visCR c (go c (c.radius + 2) dx s e)).Nodup := by
    refine hg.2.imp ?_
    intro a b hab heq
    subst heq
    rcases hab with h | h
    · exact h rfl
    · exact lt_irrefl _ h
  have hnodup_q : (queried (go c (c.radius + 2) dx s e)).Nodup :=
    List.Nodup.of_map _ hnodup_vis
  exact (go_applied_sublist c (c.radius + 2) dx s e).nodup hnodup_q

/-- C5: At-most-once visitation per octant pass: one top-level invocation of
the octant scanner for a fixed octant descriptor (signx, signy in {1,-1}, any
rx), starting column at least 1 and slope window within the unit interval,
including all recursive shadow-split and continuation calls it spawns, with a
pure, deterministic opaque predicate, invokes apply at most once for any
given tile: the list of applied tiles has no duplicate. -/
theorem c5_at_most_once (c : Ctx) (hx : c.signx = 1 ∨ c.signx = -1)
    (hy : c.signy = 1 ∨ c.signy = -1) (dx : Nat) (hdx : 1 ≤ dx)
    (s e : Rat) (hs0 : 0 ≤ s) (he0 : 0 ≤ e) (he1 : e ≤ 1) :
    (applied (fovOctant c dx s e)).Nodup :=
  fovOctant_applied_nodup c hx hy dx hdx s e hs0 he0 he1

theorem c5_at_most_once_witness :
    (applied (fovOctant ⟨wallOct, 0, 0, 5, 1, 1, false⟩ 1 0 1)).Nodup :=
  c5_at_most_once ⟨wallOct, 0, 0, 5, 1, 1, false⟩ (Or.inl rfl) (Or.inl rfl) 1
    (by norm_num) 0 1 (by norm_num) (by norm_num) (by norm_num)



/-- C6 (amended): within-octant callback order per column.  Within any
single octant pass (starting column at least 1, slope window within the unit
interval), any two apply invocations decode, in invocation order, either to
different column distances or to strictly increasing rows: within one column
rows are reported in strictly increasing order, and no tile repeats.  The
originally claimed global distance-then-row order does not hold, because the
shadow-split recursion finishes all deeper columns of the pre-split window
before the loop resumes the current column. -/
theorem c6_column_order (c : Ctx) (hx : c.signx = 1 ∨ c.signx = -1)
    (hy : c.signy = 1 ∨ c.signy = -1) (dx : Nat) (hdx : 1 ≤ dx)
    (s e : Rat) (hs0 : 0 ≤ s) (he0 : 0 ≤ e) (he1 : e ≤ 1) :
    List.Pairwise (fun a b : Int × Int => a.1 ≠ b.1 ∨ a.2 < b.2)
      ((applied (fovOctant c dx s e)).map (fun t => (colOf c t, rowOf c t))) := by
  rw [fovOctant]
  have hg := go_vis c hx hy (c.radius + 2) dx s e hdx hs0 he0 he1
  have hsub := (go_applied_sublist c (c.radius + 2) dx s e).map
    (fun t => (colOf c t, rowOf c t))
  exact List.Pairwise.sublist hsub hg.2

theorem c6_column_order_witness :
    List.Pairwise (fun a b : Int × Int => a.1 ≠ b.1 ∨ a.2 < b.2)
      ((applied (fovOctant ⟨wallOct, 0, 0, 5, 1, 1, false⟩ 1 0 1)).map
        (fun t => (colOf ⟨wallOct, 0, 0, 5, 1, 1, false⟩ t,
          rowOf ⟨wallOct, 0, 0, 5, 1, 1, false⟩ t))) :=
  c6_column_order ⟨wallOct, 0, 0, 5, 1, 1, false⟩ (Or.inl rfl) (Or.inl rfl) 1
    (by norm_num) 0 1 (by norm_num) (by norm_num) (by norm_num)
end Fovjs

namespace Fovjs

theorem scanRows_applyClear (c : Ctx) (hoa : c.st.opaqApply = false)
    (dx : Nat) (e : Rat) (split : Rat → Rat → List Event)
    (hsplit : ∀ s' e', ∀ ev ∈ split s' e', applyClear c.st ev) :
    ∀ (rows : List Int) (prev : Int) (s : Rat),
      ∀ ev ∈ scanRows c dx e split rows prev s, applyClear c.st ev := by
  intro rows
  induction rows with
  | nil => intro prev s ev hev; simp [scanRows] at hev
  | cons dy rest ih =>
    intro prev s ev hev
    simp only [scanRows] at hev
    by_cases hop : c.st.isOpaque (tileOf c dx dy).1 (tileOf c dx dy).2 = true
    · rw [if_pos hop] at hev
      simp only [List.mem_cons, List.mem_append] at hev
      rcases hev with rfl | h | h | h
      · trivial
      · rw [hoa] at h
        simp at h
      · split_ifs at h
        · exact hsplit _ _ ev h
        · simp at h
      · exact ih 1 s ev h
    · rw [if_neg hop] at hev
      simp only [List.mem_cons, List.mem_append] at hev
      rcases hev with rfl | h | h | h
      · trivial
      · split_ifs at h
        · simp only [List.mem_singleton] at h
          subst h
          show c.st.isOpaque (tileOf c dx dy).1 (tileOf c dx dy).2 = false
          simpa using hop
        · simp at h
      · split_ifs at h
        · simp only [List.mem_singleton] at h
          subst h
          trivial
        · simp at h
      · split_ifs at h
        · exact ih 0 _ ev h
        · exact ih 0 s ev h

theorem go_applyClear (c : Ctx) (hoa : c.st.opaqApply = false) :
    ∀ (fuel dxArg : Nat) (s e : Rat),
      ∀ ev ∈ go c fuel dxArg s e, applyClear c.st ev := by
  intro fuel
  induction fuel with
  | zero => intro dxArg s e ev hev; simp [go] at hev
  | succ n ih =>
    intro dxArg s e ev hev
    simp only [go, List.mem_cons] at hev
    rcases hev with rfl | h
    · trivial
    rcases Decidable.em (dxArg = 0 ∨ dxArg ≤ c.radius) with hguard | hguard
    swap
    · rw [if_neg hguard] at h
      simp at h
    rw [if_pos hguard] at h
    generalize hdxe : (if dxArg = 0 then 1 else dxArg) = dx2 at h
    rw [octColumn] at h
    split_ifs at h with hcol
    · simp at h
    simp only [List.mem_append] at h
    rcases h with h | h
    · exact scanRows_applyClear c hoa dx2 e _ (fun s' e' => ih _ s' e') _ (-1) s ev h
    · split_ifs at h with hfin
      · exact ih _ _ e ev h
      · simp at h

theorem octant2_applyClear (st : Settings) (sx sy : Int) (radius : Nat)
    (hoa : st.opaqApply = false) (p q : OctDesc) (dx : Nat) (s e : Rat) :
    ∀ ev ∈ fovOctant2 st sx sy radius p q dx s e, applyClear st ev := by
  intro ev hev
  rw [fovOctant2] at hev
  simp only [List.mem_append] at hev
  rcases hev with h | h
  · exact go_applyClear ⟨st, sx, sy, radius, p.1, p.2.1, p.2.2⟩ hoa _ _ _ _ ev h
  · exact go_applyClear ⟨st, sx, sy, radius, q.1, q.2.1, q.2.2⟩ hoa _ _ _ _ ev h

end Fovjs

namespace Fovjs

theorem beamDirection_applyClear (st : Settings) (sx sy : Int) (radius : Nat)
    (hoa : st.opaqApply = false) (dir : String) (a : Rat) (d : String)
    (p1 p2 p3 p4 p5 p6 p7 p8 : OctDesc) :
    ∀ ev ∈ beamDirection st sx sy radius dir a d p1 p2 p3 p4 p5 p6 p7 p8,
      applyClear st ev := by
  intro ev hev
  rw [beamDirection] at hev
  by_cases hd : dir = d
  case neg => rw [if_neg hd] at hev; simp at hev
  rw [if_pos hd] at hev
  simp only [List.mem_append] at hev
  rcases hev with h | h | h | h
  · exact octant2_applyClear st sx sy radius hoa p1 p2 _ _ _ ev h
  · split_ifs at h
    · exact octant2_applyClear st sx sy radius hoa p3 p4 _ _ _ ev h
    · simp at h
  · split_ifs at h
    · exact octant2_applyClear st sx sy radius hoa p5 p6 _ _ _ ev h
    · simp at h
  · split_ifs at h
    · exact octant2_applyClear st sx sy radius hoa p7 p8 _ _ _ ev h
    · simp at h

theorem beamDirectionDiag_applyClear (st : Settings) (sx sy : Int) (radius : Nat)
    (hoa : st.opaqApply = false) (dir : String) (a : Rat) (d : String)
    (p1 p2 p3 p4 p5 p6 p7 p8 : OctDesc) :
    ∀ ev ∈ beamDirectionDiag st sx sy radius dir a d p1 p2 p3 p4 p5 p6 p7 p8,
      applyClear st ev := by
  intro ev hev
  rw [beamDirectionDiag] at hev
  by_cases hd : dir = d
  case neg => rw [if_neg hd] at hev; simp at hev
  rw [if_pos hd] at hev
  simp only [List.mem_append] at hev
  rcases hev with h | h | h | h
  · exact octant2_applyClear st sx sy radius hoa p1 p2 _ _ _ ev h
  · split_ifs at h
    · exact octant2_applyClear st sx sy radius hoa p3 p4 _ _ _ ev h
    · simp at h
  · split_ifs at h
    · exact octant2_applyClear st sx sy radius hoa p5 p6 _ _ _ ev h
    · simp at h
  · split_ifs at h
    · exact octant2_applyClear st sx sy radius hoa p7 p8 _ _ _ ev h
    · simp at h

theorem circleAux_applyClear (st : Settings) (sx sy : Int) (radius : Nat)
    (hoa : st.opaqApply = false) :
    ∀ ev ∈ fovCircleAux st sx sy radius, applyClear st ev := by
  intro ev hev
  rw [fovCircleAux] at hev
  simp only [List.mem_append, fovOctant] at hev
  rcases hev with (((((((h|h)|h)|h)|h)|h)|h)|h) <;>
    exact go_applyClear _ hoa _ _ _ _ ev h

theorem beam2Loop_applyClear (st : Settings) (sx sy : Int) (radius : Nat)
    (hoa : st.opaqApply = false) (q1 q2 : Rat) (qf1 qf2 : Int) :
    ∀ (fuel : Nat) (i : Int),
      ∀ ev ∈ beam2Loop st sx sy radius q1 q2 qf1 qf2 fuel i, applyClear st ev := by
  intro fuel
  induction fuel with
  | zero => intro i ev hev; simp [beam2Loop] at hev
  | succ n ih =>
    intro i ev hev
    simp only [beam2Loop, List.mem_append] at hev
    rcases hev with h | h
    · split_ifs at h with hpar <;>
      · rw [fovOctant] at h
        exact go_applyClear _ hoa _ _ _ _ ev h
    · split_ifs at h with hstop
      · simp at h
      · exact ih _ ev h

end Fovjs

namespace Fovjs

/-- The edge gate of the dy loop (apply_edge || dy > 0), decoded: within one
octant pass an opaque tile that is consulted is applied precisely when the
gate holds, and an opaque tile is never applied when the gate fails. -/
theorem scanRows_gate (c : Ctx) (hy : c.signy = 1 ∨ c.signy = -1)
    (dx : Nat) (e : Rat) (split : Rat → Rat → List Event)
    (hsplit1 : ∀ s' e' (x y : Int), Event.query x y true ∈ split s' e' →
        (c.signy = 1 ∨ 0 < rowOf c (x, y)) → c.st.opaqApply = true →
        Event.apply x y ∈ split s' e')
    (hsplit2 : ∀ s' e' (x y : Int), c.st.isOpaque x y = true →
        ¬(c.signy = 1 ∨ 0 < rowOf c (x, y)) → Event.apply x y ∉ split s' e') :
    ∀ (rows : List Int) (prev : Int) (s : Rat) (x y : Int),
      (Event.query x y true ∈ scanRows c dx e split rows prev s →
        (c.signy = 1 ∨ 0 < rowOf c (x, y)) → c.st.opaqApply = true →
        Event.apply x y ∈ scanRows c dx e split rows prev s) ∧
      (c.st.isOpaque x y = true → ¬(c.signy = 1 ∨ 0 < rowOf c (x, y)) →
        Event.apply x y ∉ scanRows c dx e split rows prev s) := by
  intro rows
  induction rows with
  | nil =>
    intro prev s x y
    constructor
    · intro hq
      simp [scanRows] at hq
    · intro _ _ hmem
      simp [scanRows] at hmem
  | cons dy rest ih =>
    intro prev s x y
    have hrow : rowOf c ((tileOf c dx dy).1, (tileOf c dx dy).2) = dy :=
      rowOf_tileOf c hy dx dy
    constructor
    · intro hq hg hoa
      simp only [scanRows] at hq ⊢
      by_cases hop : c.st.isOpaque (tileOf c dx dy).1 (tileOf c dx dy).2 = true
      · rw [if_pos hop] at hq ⊢
        rcases List.mem_cons.mp hq with heq | hq2
        · injection heq with hx1 hy1 _
          subst hx1
          subst hy1
          have hg' : c.signy = 1 ∨ 0 < dy := by
            rw [hrow] at hg
            exact hg
          have hcond : (c.st.opaqApply && (c.signy == 1 || decide (0 < dy))) = true := by
            rw [hoa]
            simp only [Bool.true_and, Bool.or_eq_true, beq_iff_eq, decide_eq_true_eq]
            exact hg'
          refine List.mem_cons_of_mem _ (List.mem_append_left _ ?_)
          rw [if_pos hcond]
          exact List.mem_cons_self _ _
        · rcases List.mem_append.mp hq2 with hA | hq3
          · split_ifs at hA <;> simp at hA
          rcases List.mem_append.mp hq3 with hS | hR
          · split_ifs at hS with hp0
            · refine List.mem_cons_of_mem _ (List.mem_append_right _
                (List.mem_append_left _ ?_))
              rw [if_pos hp0]
              exact hsplit1 _ _ x y hS hg hoa
            · simp at hS
          · refine List.mem_cons_of_mem _ (List.mem_append_right _
              (List.mem_append_right _ ?_))
            exact ((ih 1 s x y).1) hR hg hoa
      · rw [if_neg hop] at hq ⊢
        rcases List.mem_cons.mp hq with heq | hq2
        · injection heq with _ _ hb
          exact absurd hb (by simp)
        · rcases List.mem_append.mp hq2 with hA | hq3
          · split_ifs at hA <;> simp at hA
          rcases List.mem_append.mp hq3 with hU | hR
          · split_ifs at hU <;> simp at hU
          · refine List.mem_cons_of_mem _ (List.mem_append_right _
              (List.mem_append_right _ ?_))
            exact ((ih 0 _ x y).1) hR hg hoa
    · intro hopq hng hmem
      simp only [scanRows] at hmem
      by_cases hop : c.st.isOpaque (tileOf c dx dy).1 (tileOf c dx dy).2 = true
      · rw [if_pos hop] at hmem
        rcases List.mem_cons.mp hmem with heq | hmem2
        · exact Event.noConfusion heq
        rcases List.mem_append.mp hmem2 with hA | hmem3
        · split_ifs at hA with hcond
          · simp only [List.mem_singleton] at hA
            injection hA with hx1 hy1
            subst hx1
            subst hy1
            rw [hrow] at hng
            simp only [Bool.and_eq_true, Bool.or_eq_true, beq_iff_eq,
              decide_eq_true_eq] at hcond
            exact hng hcond.2
          · simp at hA
        rcases List.mem_append.mp hmem3 with hS | hR
        · split_ifs at hS
          · exact hsplit2 _ _ x y hopq hng hS
          · simp at hS
        · exact ((ih 1 s x y).2) hopq hng hR
      · rw [if_neg hop] at hmem
        rcases List.mem_cons.mp hmem with heq | hmem2
        · exact Event.noConfusion heq
        rcases List.mem_append.mp hmem2 with hA | hmem3
        · split_ifs at hA
          · simp only [List.mem_singleton] at hA
            injection hA with hx1 hy1
            subst hx1
            subst hy1
            exact absurd hopq (by simpa using hop)
          · simp at hA
        rcases List.mem_append.mp hmem3 with hU | hR
        · split_ifs at hU <;> simp at hU
        · exact ((ih 0 _ x y).2) hopq hng hR

end Fovjs

namespace Fovjs

theorem go_gate (c : Ctx) (hy : c.signy = 1 ∨ c.signy = -1) :
    ∀ (fuel dxArg : Nat) (s e : Rat) (x y : Int),
      (Event.query x y true ∈ go c fuel dxArg s e →
        (c.signy = 1 ∨ 0 < rowOf c (x, y)) → c.st.opaqApply = true →
        Event.apply x y ∈ go c fuel dxArg s e) ∧
      (c.st.isOpaque x y = true → ¬(c.signy = 1 ∨ 0 < rowOf c (x, y)) →
        Event.apply x y ∉ go c fuel dxArg s e) := by
  intro fuel
  induction fuel with
  | zero =>
    intro dxArg s e x y
    constructor
    · intro hq
      simp [go] at hq
    · intro _ _ hmem
      simp [go] at hmem
  | succ n ih =>
    intro dxArg s e x y
    constructor
    · intro hq hg hoa
      simp only [go, List.mem_cons] at hq ⊢
      rcases hq with heq | hq2
      · exact Event.noConfusion heq
      refine Or.inr ?_
      rcases Decidable.em (dxArg = 0 ∨ dxArg ≤ c.radius) with hguard | hguard
      swap
      · rw [if_neg hguard] at hq2
        simp at hq2
      rw [if_pos hguard] at hq2 ⊢
      generalize hdxe : (if dxArg = 0 then 1 else dxArg) = dx2 at hq2 ⊢
      rw [octColumn] at hq2 ⊢
      split_ifs at hq2 ⊢ with hcol
      · simp at hq2
      simp only [List.mem_append] at hq2 ⊢
      rcases hq2 with hR | hT
      · exact Or.inl (scanRows_gate c hy dx2 e _
          (fun s' e' a b hq' hg' hoa' => ((ih (dx2 + 1) s' e' a b).1) hq' hg' hoa')
          (fun s' e' a b ho hn => ((ih (dx2 + 1) s' e' a b).2) ho hn)
          _ (-1) s x y |>.1 hR hg hoa)
      · split_ifs at hT with hfin
        · refine Or.inr ?_
          rw [if_pos hfin]
          exact ((ih (dx2 + 1) _ e x y).1) hT hg hoa
        · simp at hT
    · intro hopq hng hmem
      simp only [go, List.mem_cons] at hmem
      rcases hmem with heq | hmem2
      · exact Event.noConfusion heq
      rcases Decidable.em (dxArg = 0 ∨ dxArg ≤ c.radius) with hguard | hguard
      swap
      · rw [if_neg hguard] at hmem2
        simp at hmem2
      rw [if_pos hguard] at hmem2
      generalize hdxe : (if dxArg = 0 then 1 else dxArg) = dx2 at hmem2
      rw [octColumn] at hmem2
      split_ifs at hmem2 with hcol
      · simp at hmem2
      simp only [List.mem_append] at hmem2
      rcases hmem2 with hR | hT
      · exact scanRows_gate c hy dx2 e _
          (fun s' e' a b hq' hg' hoa' => ((ih (dx2 + 1) s' e' a b).1) hq' hg' hoa')
          (fun s' e' a b ho hn => ((ih (dx2 + 1) s' e' a b).2) ho hn)
          _ (-1) s x y |>.2 hopq hng hR
      · split_ifs at hT with hfin
        · exact ((ih (dx2 + 1) _ e x y).2) hopq hng hT
        · simp at hT

end Fovjs

namespace Fovjs

attribute [local semireducible] Rat.add Rat.mul Rat.sub Rat.inv

theorem scanRows_query_consistent (c : Ctx) (dx : Nat) (e : Rat)
    (split : Rat → Rat → List Event)
    (hsplit : ∀ s' e' (x y : Int) (b : Bool), Event.query x y b ∈ split s' e' →
        c.st.isOpaque x y = b) :
    ∀ (rows : List Int) (prev : Int) (s : Rat) (x y : Int) (b : Bool),
      Event.query x y b ∈ scanRows c dx e split rows prev s →
      c.st.isOpaque x y = b := by
  intro rows
  induction rows with
  | nil =>
    intro prev s x y b hq
    simp [scanRows] at hq
  | cons dy rest ih =>
    intro prev s x y b hq
    simp only [scanRows] at hq
    by_cases hop : c.st.isOpaque (tileOf c dx dy).1 (tileOf c dx dy).2 = true
    · rw [if_pos hop] at hq
      rcases List.mem_cons.mp hq with heq | hq2
      · injection heq with hx1 hy1 hb
        subst hx1
        subst hy1
        subst hb
        exact hop
      rcases List.mem_append.mp hq2 with hA | hq3
      · split_ifs at hA <;> simp at hA
      rcases List.mem_append.mp hq3 with hS | hR
      · split_ifs at hS
        · exact hsplit _ _ x y b hS
        · simp at hS
      · exact ih 1 s x y b hR
    · rw [if_neg hop] at hq
      rcases List.mem_cons.mp hq with heq | hq2
      · injection heq with hx1 hy1 hb
        subst hx1
        subst hy1
        subst hb
        simpa using hop
      rcases List.mem_append.mp hq2 with hA | hq3
      · split_ifs at hA <;> simp at hA
      rcases List.mem_append.mp hq3 with hU | hR
      · split_ifs at hU <;> simp at hU
      · exact ih 0 _ x y b hR

theorem go_query_consistent (c : Ctx) :
    ∀ (fuel dxArg : Nat) (s e : Rat) (x y : Int) (b : Bool),
      Event.query x y b ∈ go c fuel dxArg s e → c.st.isOpaque x y = b := by
  intro fuel
  induction fuel with
  | zero =>
    intro dxArg s e x y b hq
    simp [go] at hq
  | succ n ih =>
    intro dxArg s e x y b hq
    simp only [go, List.mem_cons] at hq
    rcases hq with heq | hq2
    · exact Event.noConfusion heq
    rcases Decidable.em (dxArg = 0 ∨ dxArg ≤ c.radius) with hguard | hguard
    swap
    · rw [if_neg hguard] at hq2
      simp at hq2
    rw [if_pos hguard] at hq2
    generalize hdxe : (if dxArg = 0 then 1 else dxArg) = dx2 at hq2
    rw [octColumn] at hq2
    split_ifs at hq2 with hcol
    · simp at hq2
    simp only [List.mem_append] at hq2
    rcases hq2 with hR | hT
    · exact scanRows_query_consistent c dx2 e _
        (fun s' e' a bb bbb hq' => ih (dx2 + 1) s' e' a bb bbb hq') _ (-1) s x y b hR
    · split_ifs at hT with hfin
      · exact ih (dx2 + 1) _ e x y b hT
      · simp at hT

/-- C3 counterexample: with opaque_apply true, a beam2 wedge confined to a
signy = -1 octant consults the opaque tile (0,3) (the query records true) yet
never invokes apply on it, because the row-0 edge gate apply_edge || dy > 0
fails there — so a visited opaque tile gets zero callbacks, refuting the
exactly-once half of the claim. -/
theorem c3_counterexample :
    Event.query 0 3 true ∈ fovBeam2 wallNorthApply 0 0 4 (21/40) (1/20) ∧
    Event.apply 0 3 ∉ fovBeam2 wallNorthApply 0 0 4 (21/40) (1/20) := by
  constructor
  · decide
  · decide

end Fovjs

namespace Fovjs

attribute [local semireducible] Rat.add Rat.mul Rat.sub Rat.inv

/-- C3 (amended): opaque gating.  With opaque_apply false, none of circle,
beam or beam2 ever invokes apply on a tile for which opaque returned true.
With opaque_apply true, within one octant pass (unit slope window, starting
column at least 1): a consulted opaque tile is applied — and, the applied
list being duplicate-free, applied exactly once — whenever the edge gate
apply_edge || dy > 0 holds (signy = 1 or the tile is off the octant's leading
row), and is never applied when the gate fails; so exactly-once does not hold
for every visited opaque tile (see the counterexample). -/
theorem c3_opaque_gating :
    (∀ (st : Settings) (sx sy : Int) (radius : Nat) (x y : Int),
        st.opaqApply = false → Event.apply x y ∈ fovCircle st sx sy radius →
        st.isOpaque x y = false) ∧
    (∀ (st : Settings) (sx sy : Int) (radius : Nat) (dir : String)
        (anglePi : Rat) (x y : Int),
        st.opaqApply = false →
        Event.apply x y ∈ fovBeam st sx sy radius dir anglePi →
        st.isOpaque x y = false) ∧
    (∀ (st : Settings) (sx sy : Int) (radius : Nat) (anglePi spreadPi : Rat)
        (x y : Int),
        st.opaqApply = false →
        Event.apply x y ∈ fovBeam2 st sx sy radius anglePi spreadPi →
        st.isOpaque x y = false) ∧
    (∀ (c : Ctx), (c.signx = 1 ∨ c.signx = -1) → (c.signy = 1 ∨ c.signy = -1) →
      ∀ (dx : Nat), 1 ≤ dx → ∀ (s e : Rat), 0 ≤ s → 0 ≤ e → e ≤ 1 →
      ∀ (x y : Int), c.st.opaqApply = true →
        Event.query x y true ∈ fovOctant c dx s e →
        ((c.signy = 1 ∨ 0 < rowOf c (x, y)) →
            Event.apply x y ∈ fovOctant c dx s e ∧
            (applied (fovOctant c dx s e)).Nodup) ∧
        (¬(c.signy = 1 ∨ 0 < rowOf c (x, y)) →
            Event.apply x y ∉ fovOctant c dx s e)) := by
  refine ⟨?_, ?_, ?_, ?_⟩
  · intro st sx sy radius x y hoa h
    exact circleAux_applyClear st sx sy radius hoa _ h
  · intro st sx sy radius dir anglePi x y hoa h
    rw [fovBeam] at h
    split_ifs at h with hle hbig
    · simp at h
    · exact circleAux_applyClear st sx sy radius hoa _ h
    · simp only [List.mem_append] at h
      rcases h with h | h | h | h | h | h | h | h
      · exact beamDirection_applyClear st sx sy radius hoa _ _ _ _ _ _ _ _ _ _ _ _ h
      · exact beamDirection_applyClear st sx sy radius hoa _ _ _ _ _ _ _ _ _ _ _ _ h
      · exact beamDirection_applyClear st sx sy radius hoa _ _ _ _ _ _ _ _ _ _ _ _ h
      · exact beamDirection_applyClear st sx sy radius hoa _ _ _ _ _ _ _ _ _ _ _ _ h
      · exact beamDirectionDiag_applyClear st sx sy radius hoa _ _ _ _ _ _ _ _ _ _ _ _ h
      · exact beamDirectionDiag_applyClear st sx sy radius hoa _ _ _ _ _ _ _ _ _ _ _ _ h
      · exact beamDirectionDiag_applyClear st sx sy radius hoa _ _ _ _ _ _ _ _ _ _ _ _ h
      · exact beamDirectionDiag_applyClear st sx sy radius hoa _ _ _ _ _ _ _ _ _ _ _ _ h
  · intro st sx sy radius anglePi spreadPi x y hoa h
    rw [fovBeam2] at h
    split_ifs at h with hle hbig
    · simp at h
    · exact circleAux_applyClear st sx sy radius hoa _ h
    · exact beam2Loop_applyClear st sx sy radius hoa _ _ _ _ 8 _ _ h
  · intro c hx hy dx hdx s e hs0 he0 he1 x y hoa hq
    rw [fovOctant] at hq
    have hg := go_gate c hy (c.radius + 2) dx s e x y
    constructor
    · intro hgate
      rw [fovOctant]
      exact ⟨hg.1 hq hgate hoa,
        by rw [← fovOctant]; exact fovOctant_applied_nodup c hx hy dx hdx s e hs0 he0 he1⟩
    · intro hngate
      have hopq : c.st.isOpaque x y = true :=
        go_query_consistent c (c.radius + 2) dx s e x y true hq
      rw [fovOctant]
      exact hg.2 hopq hngate

theorem c3_opaque_gating_witness :
    Event.apply 2 1 ∈ fovOctant ⟨wallOctApply, 0, 0, 5, 1, 1, false⟩ 1 0 1 ∧
    (applied (fovOctant ⟨wallOctApply, 0, 0, 5, 1, 1, false⟩ 1 0 1)).Nodup :=
  (c3_opaque_gating.2.2.2 ⟨wallOctApply, 0, 0, 5, 1, 1, false⟩ (Or.inl rfl) (Or.inl rfl)
    1 (by norm_num) 0 1 (by norm_num) (by norm_num) (by norm_num) 2 1 rfl
    (by decide)).1 (Or.inl rfl)

end Fovjs

namespace Fovjs

/-- The shape boundary is antitone in the column distance. -/
theorem shapeH_anti (sh : Shape) (radius : Nat) {d1 d2 : Nat} (h : d1 ≤ d2) :
    shapeH sh radius d2 ≤ shapeH sh radius d1 := by
  cases sh with
  | circle =>
    exact Nat.sqrt_le_sqrt (by have := Nat.mul_le_mul h h; omega)
  | octagon =>
    have : radius - d2 ≤ radius - d1 := by omega
    simpa [shapeH] using Nat.mul_le_mul_right 2 this

/-- The shape boundary is monotone in the radius. -/
theorem shapeH_mono_radius (sh : Shape) {r1 r2 : Nat} (h : r1 ≤ r2) (dx : Nat) :
    shapeH sh r1 dx ≤ shapeH sh r2 dx := by
  cases sh with
  | circle =>
    exact Nat.sqrt_le_sqrt (by have := Nat.mul_le_mul h h; omega)
  | octagon =>
    have : r1 - dx ≤ r2 - dx := by omega
    simpa [shapeH] using Nat.mul_le_mul_right 2 this

/-- Changing only the radius leaves the examined tiles unchanged. -/
theorem tileOf_radius (c : Ctx) (R' : Nat) (dx : Nat) (dy : Int) :
    tileOf {c with radius := R'} dx dy = tileOf c dx dy := rfl

theorem scanState_radius (c : Ctx) (R' : Nat) (dx : Nat) :
    ∀ (rows : List Int) (prev : Int) (s : Rat),
      scanState {c with radius := R'} dx rows prev s = scanState c dx rows prev s := by
  intro rows
  induction rows with
  | nil => intro prev s; rfl
  | cons dy rest ih =>
    intro prev s
    simp only [scanState, tileOf_radius]
    by_cases hop : c.st.isOpaque (tileOf c dx dy).1 (tileOf c dx dy).2 = true
    · rw [if_pos hop, if_pos hop, ih]
    · rw [if_neg hop, if_neg hop, ih]

theorem rowHiPre_radius (c : Ctx) (R' : Nat) (dx : Nat) (e : Rat) :
    rowHiPre {c with radius := R'} dx e = rowHiPre c dx e := rfl

theorem rowRange_nil {a b : Int} (h : b < a) : rowRange a b = [] := by
  rw [rowRange]
  have h0 : (b + 1 - a).toNat = 0 := by omega
  rw [h0]
  simp

theorem rowRange_append {a b b' : Int} (h1 : a ≤ b + 1) (h2 : b ≤ b') :
    rowRange a b' = rowRange a b ++ rowRange (b + 1) b' := by
  apply List.ext_getElem
  · simp only [rowRange, List.length_append, List.length_map, List.length_range]
    omega
  · intro i hi1 hi2
    simp only [rowRange, List.getElem_map, List.getElem_range]
    by_cases hcase : i < (b + 1 - a).toNat
    · rw [List.getElem_append_left (by
        simpa only [rowRange, List.length_map, List.length_range] using hcase)]
      simp only [rowRange, List.getElem_map, List.getElem_range]
    · rw [List.getElem_append_right (by
        simp only [rowRange, List.length_map, List.length_range]
        omega)]
      simp only [rowRange, List.getElem_map, List.getElem_range, List.length_map,
        List.length_range]
      omega

theorem scanRows_append (c : Ctx) (dx : Nat) (e : Rat)
    (split : Rat → Rat → List Event) :
    ∀ (l1 l2 : List Int) (prev : Int) (s : Rat),
      scanRows c dx e split (l1 ++ l2) prev s =
        scanRows c dx e split l1 prev s ++
          scanRows c dx e split l2 (scanState c dx l1 prev s).1
            (scanState c dx l1 prev s).2 := by
  intro l1
  induction l1 with
  | nil => intro l2 prev s; rfl
  | cons dy rest ih =>
    intro l2 prev s
    by_cases hop : c.st.isOpaque (tileOf c dx dy).1 (tileOf c dx dy).2 = true
    · rw [scanState_blocked c dx dy rest prev s hop, List.cons_append]
      simp only [scanRows]
      rw [if_pos hop, if_pos hop, ih]
      simp [List.append_assoc]
    · rw [scanState_clear c dx dy rest prev s hop, List.cons_append]
      simp only [scanRows]
      rw [if_neg hop, if_neg hop, ih]
      simp [List.append_assoc]

end Fovjs

namespace Fovjs

theorem rnd_le_dx {dx : Nat} {e : Rat} (he1 : e ≤ 1) :
    rndI (dx : Int) e ≤ (dx : Int) := by
  have h1 : rndI (dx : Int) e ≤ jsTrunc (1/2 + (dx : Rat)) := by
    rw [rndI]
    apply jsTrunc_mono
    have h0 : (0 : Rat) ≤ (dx : Rat) := by positivity
    push_cast
    nlinarith
  rw [jsTrunc_half_add_nat] at h1
  exact h1

theorem rowHiPre_eq_rnd (c : Ctx) (dx : Nat) (e : Rat) :
    rowHiPre c dx e =
      (if c.rx = true ∧ rndI (dx : Int) e = (dx : Int)
        then rndI (dx : Int) e - 1 else rndI (dx : Int) e) := by
  rw [rowHiPre, rndI]
  norm_num

theorem rnd_nonneg {col : Int} {e : Rat} (hcol : 0 ≤ col) (he : 0 ≤ e) :
    0 ≤ rndI col e := by
  apply jsTrunc_nonneg
  have h0 : (0 : Rat) ≤ (col : Rat) := by exact_mod_cast hcol
  nlinarith

theorem rowHiPre_nonneg {c : Ctx} {dx : Nat} {e : Rat} (hdx : 1 ≤ dx) (he : 0 ≤ e) :
    0 ≤ rowHiPre c dx e := by
  rw [rowHiPre_eq_rnd]
  have h0 : 0 ≤ rndI (dx : Int) e := rnd_nonneg (by positivity) he
  split_ifs with h
  · obtain ⟨-, h2⟩ := h
    omega
  · exact h0

theorem rowHiPre_mono {c : Ctx} {dx : Nat} {e e' : Rat} (hdx : 1 ≤ dx)
    (hee : e' ≤ e) (he1 : e ≤ 1) :
    rowHiPre c dx e' ≤ rowHiPre c dx e := by
  rw [rowHiPre_eq_rnd, rowHiPre_eq_rnd]
  have hmono : rndI (dx : Int) e' ≤ rndI (dx : Int) e :=
    rndI_mono_slope (by positivity) hee
  have hle : rndI (dx : Int) e ≤ (dx : Int) := rnd_le_dx he1
  rcases Decidable.em (c.rx = true ∧ rndI (dx : Int) e' = (dx : Int)) with hdec' | hdec' <;>
    rcases Decidable.em (c.rx = true ∧ rndI (dx : Int) e = (dx : Int)) with hdec | hdec
  · rw [if_pos hdec', if_pos hdec]
    omega
  · exact absurd ⟨hdec'.1, by omega⟩ hdec
  · rw [if_neg hdec', if_pos hdec]
    have hne : rndI (dx : Int) e' ≠ (dx : Int) := fun hh => hdec' ⟨hdec.1, hh⟩
    omega
  · rw [if_neg hdec', if_neg hdec]
    omega

theorem rowHi_eq_min {c : Ctx} {dx : Nat} {e : Rat} (hdx : 1 ≤ dx) (he : 0 ≤ e) :
    rowHi c dx e = min ((shapeH c.st.shape c.radius dx : Int)) (rowHiPre c dx e) := by
  have hpre := rowHiPre_nonneg (c := c) hdx he
  rw [rowHi]
  split_ifs with h
  · rw [abs_of_nonneg hpre] at h
    omega
  · rw [abs_of_nonneg hpre] at h
    omega

/-- Under the window condition, the clipped top row at the current column can
only grow when passing to the larger radius and the (smaller) covering end
slope. -/
theorem rowHi_le_of_phi {c : Ctx} {R' dx : Nat} {e e' : Rat} (hdx : 1 ≤ dx)
    (hRR : c.radius ≤ R') (he'0 : 0 ≤ e') (hee : e' ≤ e) (he1 : e ≤ 1)
    (hphi : min ((shapeH c.st.shape c.radius dx : Int)) (rndI (dx : Int) e) ≤
      rndI (dx : Int) e') :
    rowHi c dx e ≤ rowHi {c with radius := R'} dx e' := by
  have he0 : 0 ≤ e := le_trans he'0 hee
  rw [rowHi_eq_min hdx he0, rowHi_eq_min (c := {c with radius := R'}) hdx he'0]
  show min ((shapeH c.st.shape c.radius dx : Int)) (rowHiPre c dx e) ≤
    min ((shapeH c.st.shape R' dx : Int)) (rowHiPre c dx e')
  have hsh : shapeH c.st.shape c.radius dx ≤ shapeH c.st.shape R' dx :=
    shapeH_mono_radius _ hRR dx
  have hrndmono : rndI (dx : Int) e' ≤ rndI (dx : Int) e :=
    rndI_mono_slope (by positivity) hee
  have hrndle : rndI (dx : Int) e ≤ (dx : Int) := rnd_le_dx he1
  have hpre_e : rowHiPre c dx e ≤ rndI (dx : Int) e := by
    rw [rowHiPre_eq_rnd]
    split_ifs <;> omega
  have hkey : min ((shapeH c.st.shape c.radius dx : Int)) (rowHiPre c dx e) ≤
      rowHiPre c dx e' := by
    rw [rowHiPre_eq_rnd (e := e')]
    split_ifs with hdec
    · have hde : rndI (dx : Int) e = (dx : Int) := by omega
      have : rowHiPre c dx e = (dx : Int) - 1 := by
        rw [rowHiPre_eq_rnd]
        rw [if_pos ⟨hdec.1, hde⟩, hde]
      omega
    · omega
  omega

/-- If the smaller-radius column has not collapsed, neither has the
larger-radius column for any smaller nonnegative end slope. -/
theorem not_collapsed_of_phi {c : Ctx} {R' dx : Nat} {e e' : Rat} (hdx : 1 ≤ dx)
    (hRR : c.radius ≤ R') (he'0 : 0 ≤ e') (hee : e' ≤ e) (he1 : e ≤ 1)
    (hnc : ¬ hCollapsed c dx e) : ¬ hCollapsed {c with radius := R'} dx e' := by
  intro hcol
  obtain ⟨h1, h2⟩ := hcol
  have he0 : 0 ≤ e := le_trans he'0 hee
  have hsh : shapeH c.st.shape c.radius dx ≤ shapeH c.st.shape R' dx :=
    shapeH_mono_radius _ hRR dx
  have hshR : shapeH c.st.shape c.radius dx = 0 := by
    have := h2
    simp only [Ctx.st] at this h2
    omega
  have hpre'0 : 0 ≤ rowHiPre c dx e' := rowHiPre_nonneg hdx he'0
  have hpre0 : 0 ≤ rowHiPre c dx e := rowHiPre_nonneg hdx he0
  have hpremono : rowHiPre c dx e' ≤ rowHiPre c dx e := rowHiPre_mono hdx hee he1
  rw [rowHiPre_radius] at h1
  rw [abs_of_nonneg hpre'0] at h1
  have hpreE : rowHiPre c dx e = 0 := by
    by_contra hne
    apply hnc
    refine ⟨?_, hshR⟩
    rw [abs_of_nonneg hpre0, hshR]
    omega
  omega

end Fovjs

namespace Fovjs

theorem jsTrunc_intCast (n : Int) : jsTrunc (n : Rat) = n := by
  rcases le_or_lt 0 (n : Rat) with h | h
  · rw [jsTrunc_of_nonneg h]
    exact Int.floor_intCast n
  · rw [jsTrunc, if_neg (by push_neg; exact h)]
    rw [show -((n : Int) : Rat) = ((-n : Int) : Rat) by push_cast; ring]
    rw [Int.floor_intCast]
    omega

/-- At any deeper column, the rounded row of a split slope at row y reaches
at least y. -/
theorem rnd_split_ge {dx : Nat} {y col : Int} (h1 : 1 ≤ y)
    (hcol : (dx : Int) + 1 ≤ col) :
    y ≤ rndI col (fovSlope ((dx : Rat) + 1/2) ((y : Rat) - 1/2)) := by
  have hdx0 : (0 : Rat) ≤ (dx : Rat) := by positivity
  have hyq : (1 : Rat) ≤ (y : Rat) := by exact_mod_cast h1
  have hcolq : (dx : Rat) + 1 ≤ (col : Rat) := by exact_mod_cast hcol
  have hden : (0 : Rat) < (dx : Rat) + 1/2 := by linarith
  rw [fovSlope_posden (by rw [FLT_EPSILON]; norm_num; linarith)]
  have hstep : (y : Rat) ≤ 1/2 + (col : Rat) * (((y : Rat) - 1/2) / ((dx : Rat) + 1/2)) := by
    have hfrac : (y : Rat) - 1/2 ≤ (col : Rat) * (((y : Rat) - 1/2) / ((dx : Rat) + 1/2)) := by
      rw [← mul_div_assoc, le_div_iff hden]
      nlinarith
    linarith
  calc y = jsTrunc ((y : Int) : Rat) := (jsTrunc_intCast y).symm
    _ ≤ jsTrunc (1/2 + (col : Rat) * (((y : Rat) - 1/2) / ((dx : Rat) + 1/2))) :=
      jsTrunc_mono hstep
    _ = rndI col _ := rfl

end Fovjs

namespace Fovjs

theorem st_radius (c : Ctx) (R' : Nat) : ({c with radius := R'} : Ctx).st = c.st := rfl

theorem signy_radius (c : Ctx) (R' : Nat) :
    ({c with radius := R'} : Ctx).signy = c.signy := rfl

/-- Coverage of the dy loop: scanning the same rows from the same state, with
a possibly different ghost end slope and a larger radius, applies every tile
the original scan applies, provided the shadow-split subcalls are covered. -/
theorem scanRows_cov (c : Ctx) (R' : Nat) (dx : Nat) (hdx : 1 ≤ dx)
    (e e2 : Rat) (split split2 : Rat → Rat → List Event)
    (hsplit : ∀ s' e', 0 ≤ s' → s' ≤ 1 → 0 ≤ e' → e' ≤ 1 →
        ∀ t ∈ applied (split s' e'), t ∈ applied (split2 s' e')) :
    ∀ (rows : List Int) (prev : Int) (s : Rat), 0 ≤ s → s ≤ 1 →
      (∀ dy ∈ rows, dy ≤ (dx : Int)) →
      (∀ dy ∈ rows, 0 ≤ dy) →
      List.Pairwise (· < ·) rows →
      (prev ≠ -1 → ∀ dy ∈ rows, 1 ≤ dy) →
      ∀ t ∈ applied (scanRows c dx e split rows prev s),
        t ∈ applied (scanRows {c with radius := R'} dx e2 split2 rows prev s) := by
  intro rows
  induction rows with
  | nil => intro prev s _ _ _ _ _ _ t ht; simp [scanRows, applied] at ht
  | cons dy rest ih =>
    intro prev s hs0 hs1 hle h0 hpw hpv t ht
    have hrest_le : ∀ d ∈ rest, d ≤ (dx : Int) :=
      fun d hd => hle d (List.mem_cons_of_mem _ hd)
    have hrest0 : ∀ d ∈ rest, 0 ≤ d := fun d hd => h0 d (List.mem_cons_of_mem _ hd)
    have hdy0 : 0 ≤ dy := h0 dy (List.mem_cons_self _ _)
    have hdyle : dy ≤ (dx : Int) := hle dy (List.mem_cons_self _ _)
    have hrest1 : ∀ d ∈ rest, 1 ≤ d := by
      intro d hd
      have := (List.pairwise_cons.mp hpw).1 d hd
      omega
    have hpw2 : List.Pairwise (· < ·) rest := (List.pairwise_cons.mp hpw).2
    simp only [scanRows, st_radius, tileOf_radius, signy_radius] at ht ⊢
    by_cases hop : c.st.isOpaque (tileOf c dx dy).1 (tileOf c dx dy).2 = true
    · rw [if_pos hop] at ht ⊢
      rw [applied_cons_query, applied_append, applied_append] at ht ⊢
      simp only [List.mem_append] at ht ⊢
      rcases ht with hA | hS | hR
      · exact Or.inl hA
      · refine Or.inr (Or.inl ?_)
        split_ifs at hS with hp0
        · rw [if_pos hp0]
          have h1dy : 1 ≤ dy := by
            have hp : prev = 0 := by simpa using hp0
            exact hpv (by omega) dy (List.mem_cons_self _ _)
          have hb := splitSlope_bounds h1dy hdyle
          exact hsplit s _ hs0 hs1 hb.1 hb.2 t hS
        · simp [applied] at hS
      · exact Or.inr (Or.inr
          (ih 1 s hs0 hs1 hrest_le hrest0 hpw2 (fun _ => hrest1) t hR))
    · rw [if_neg hop] at ht ⊢
      rw [applied_cons_query, applied_append, applied_append] at ht ⊢
      simp only [List.mem_append] at ht ⊢
      rcases ht with hA | hU | hR
      · exact Or.inl hA
      · split_ifs at hU <;> simp [applied] at hU
      · refine Or.inr (Or.inr ?_)
        split_ifs at hR with hp1
        · rw [if_pos hp1]
          have h1dy : 1 ≤ dy := by
            have hp : prev = 1 := by simpa using hp1
            exact hpv (by omega) dy (List.mem_cons_self _ _)
          have hb := updSlope_bounds h1dy hdyle
          exact ih 0 _ hb.1 hb.2 hrest_le hrest0 hpw2 (fun _ => hrest1) t hR
        · rw [if_neg hp1]
          exact ih 0 s hs0 hs1 hrest_le hrest0 hpw2 (fun _ => hrest1) t hR

end Fovjs

namespace Fovjs

/-- Plumbing for radius coverage: the continuation of the original scan is
covered by the extension scan's rows beyond the original boundary — by the
first shadow split the extension performs there if it meets an opaque row,
and by the extension's own continuation if all its extra rows are clear. -/
theorem extra_cov (c2 : Ctx) (dx : Nat) (e2 : Rat)
    (split2 : Rat → Rat → List Event) (tail2 : Rat → List Event)
    (TR : List Event) (t : Rat) :
    ∀ (extra : List Int),
      (∀ y ∈ extra, ∀ u ∈ applied TR,
          u ∈ applied (split2 t (fovSlope ((dx : Rat) + 1/2) ((y : Rat) - 1/2)))) →
      (∀ u ∈ applied TR, u ∈ applied (tail2 t)) →
      ∀ u ∈ applied TR,
        u ∈ applied (scanRows c2 dx e2 split2 extra 0 t ++
          (if (scanState c2 dx extra 0 t).1 == 0
            then tail2 (scanState c2 dx extra 0 t).2 else [])) := by
  intro extra
  induction extra with
  | nil =>
    intro hsp htail u hu
    show u ∈ applied ([] ++ _)
    rw [List.nil_append]
    rw [show (scanState c2 dx [] 0 t) = (0, t) from rfl]
    rw [if_pos (by norm_num)]
    exact htail u hu
  | cons y rest ih =>
    intro hsp htail u hu
    by_cases hop : c2.st.isOpaque (tileOf c2 dx y).1 (tileOf c2 dx y).2 = true
    · rw [scanState_blocked c2 dx y rest 0 t hop]
      simp only [scanRows]
      rw [if_pos hop]
      rw [applied_append, applied_cons_query, applied_append, applied_append]
      simp only [List.mem_append]
      refine Or.inl (Or.inr (Or.inl ?_))
      rw [if_pos (by norm_num : ((0 : Int) == 0) = true)]
      exact hsp y (List.mem_cons_self _ _) u hu
    · rw [scanState_clear c2 dx y rest 0 t hop]
      rw [if_neg (by decide : ¬ (((0 : Int) == 1) = true))]
      simp only [scanRows]
      rw [if_neg hop]
      rw [applied_append, applied_cons_query, applied_append, applied_append]
      simp only [List.mem_append]
      have hrec := ih (fun y' hy' => hsp y' (List.mem_cons_of_mem _ hy')) htail u hu
      rw [applied_append, List.mem_append] at hrec
      rcases hrec with h | h
      · refine Or.inl (Or.inr (Or.inr ?_))
        rw [if_neg (by decide : ¬ (((0 : Int) == 1) = true))]
        exact h
      · exact Or.inr h

end Fovjs

namespace Fovjs

theorem scanState_append (c : Ctx) (dx : Nat) :
    ∀ (l1 l2 : List Int) (prev : Int) (s : Rat),
      scanState c dx (l1 ++ l2) prev s =
        scanState c dx l2 (scanState c dx l1 prev s).1 (scanState c dx l1 prev s).2 := by
  intro l1
  induction l1 with
  | nil => intro l2 prev s; rfl
  | cons dy rest ih =>
    intro l2 prev s
    by_cases hop : c.st.isOpaque (tileOf c dx dy).1 (tileOf c dx dy).2 = true
    · rw [scanState_blocked c dx dy rest prev s hop, List.cons_append,
        scanState_blocked c dx dy (rest ++ l2) prev s hop, ih]
    · rw [scanState_clear c dx dy rest prev s hop, List.cons_append,
        scanState_clear c dx dy (rest ++ l2) prev s hop, ih]

end Fovjs

namespace Fovjs

/-- Radius coverage of the octant scanner: enlarging the radius (and possibly
shrinking the end slope, as long as it still covers everything below the
smaller radius's shape boundary, as the premise states per column) preserves
every applied tile. -/
theorem go_radius_mono (c : Ctx) (R' : Nat) (hRR : c.radius ≤ R') :
    ∀ (fuelR : Nat), ∀ (fuelR' : Nat), fuelR ≤ fuelR' →
    ∀ (dxn : Nat), 1 ≤ dxn → ∀ (s e e' : Rat),
      0 ≤ s → s ≤ 1 → 0 ≤ e' → e' ≤ e → e ≤ 1 →
      (∀ col : Nat, dxn ≤ col →
        min ((shapeH c.st.shape c.radius col : Int)) (rndI (col : Int) e)
          ≤ rndI (col : Int) e') →
      ∀ t ∈ applied (go c fuelR dxn s e),
        t ∈ applied (go {c with radius := R'} fuelR' dxn s e') := by
  intro fuelR
  induction fuelR with
  | zero =>
    intro _ _ _ _ _ _ _ _ _ _ _ _ _ t ht
    simp [go_zero, applied] at ht
  | succ n ih =>
    intro fuelR' hfuel dxn hdx1 s e e' hs0 hs1 he'0 hee he1 hphi t ht
    have he0 : 0 ≤ e := le_trans he'0 hee
    obtain ⟨n', rfl⟩ : ∃ n', fuelR' = n' + 1 := ⟨fuelR' - 1, by omega⟩
    have hnn' : n ≤ n' := by omega
    simp only [go] at ht
    rw [applied_cons_call] at ht
    rcases Decidable.em (dxn = 0 ∨ dxn ≤ c.radius) with hguard | hguard
    swap
    · rw [if_neg hguard] at ht
      simp [applied] at ht
    rw [if_pos hguard] at ht
    have hdxrad : dxn ≤ c.radius := by rcases hguard with h | h <;> omega
    have hremap : (if dxn = 0 then 1 else dxn) = dxn := if_neg (by omega)
    rw [hremap] at ht
    rw [octColumn] at ht
    split_ifs at ht with hcolR
    · simp [applied] at ht
    -- unfold the larger-radius side
    simp only [go]
    rw [applied_cons_call]
    rw [if_pos (Or.inr (le_trans hdxrad hRR) : dxn = 0 ∨ dxn ≤ R')]
    rw [hremap]
    simp only [octColumn]
    rw [if_neg (not_collapsed_of_phi hdx1 hRR he'0 hee he1 hcolR)]
    -- row list decomposition
    have htop : rowHi c dxn e ≤ rowHi {c with radius := R'} dxn e' :=
      rowHi_le_of_phi hdx1 hRR he'0 hee he1 (hphi dxn le_rfl)
    have hlo0 : 0 ≤ rowLo dxn s := rowLo_nonneg hs0
    rcases Decidable.em (rowLo dxn s ≤ rowHi c dxn e) with hne | hne
    swap
    · -- the original scan is empty and leaves prev = -1: nothing applied
      rw [rowRange_nil (by omega)] at ht
      simp [scanRows, scanState, applied] at ht
    have hrows' : rowRange (rowLo dxn s) (rowHi {c with radius := R'} dxn e') =
        rowRange (rowLo dxn s) (rowHi c dxn e) ++
          rowRange (rowHi c dxn e + 1) (rowHi {c with radius := R'} dxn e') :=
      rowRange_append (by omega) htop
    rw [hrows', scanRows_append, scanState_append]
    rw [scanState_radius]
    -- row facts for the common block
    have hhile : rowHi c dxn e ≤ (dxn : Int) := rowHi_le hdx1 he0 he1
    have hmem_le : ∀ dy ∈ rowRange (rowLo dxn s) (rowHi c dxn e), dy ≤ (dxn : Int) :=
      fun dy hdy => le_trans (mem_rowRange.mp hdy).2 hhile
    have hmem0 : ∀ dy ∈ rowRange (rowLo dxn s) (rowHi c dxn e), 0 ≤ dy :=
      fun dy hdy => le_trans hlo0 (mem_rowRange.mp hdy).1
    have hsplitcov : ∀ s2 e2, 0 ≤ s2 → s2 ≤ 1 → 0 ≤ e2 → e2 ≤ 1 →
        ∀ u ∈ applied (go c n (dxn + 1) s2 e2),
          u ∈ applied (go {c with radius := R'} n' (dxn + 1) s2 e2) :=
      fun s2 e2 a b cc d => ih n' hnn' (dxn + 1) (by omega) s2 e2 e2 a b cc le_rfl d
        (fun col _ => min_le_right _ _)
    rw [applied_append, List.mem_append] at ht
    rw [applied_append, applied_append, List.mem_append, List.mem_append]
    rcases ht with hscan | htail
    · -- common block, covered row by row
      exact Or.inl (Or.inl (scanRows_cov c R' dxn hdx1 e e'
        (fun s' e' => go c n (dxn + 1) s' e')
        (fun s' e' => go {c with radius := R'} n' (dxn + 1) s' e')
        hsplitcov _ (-1) s hs0 hs1 hmem_le hmem0 (rowRange_pairwise _ _)
        (fun hc => absurd rfl hc) t hscan))
    · -- the continuation of the original scan
      split_ifs at htail with hfin
      swap
      · simp [applied] at htail
      have hfin0 : (scanState c dxn (rowRange (rowLo dxn s) (rowHi c dxn e))
          (-1) s).1 = 0 := by simpa using hfin
      have hsb := scanState_s_bounds c dxn (rowRange (rowLo dxn s) (rowHi c dxn e))
        (-1) s hs0 hs1 hmem_le hmem0 (rowRange_pairwise _ _) (fun hc => absurd rfl hc)
      -- every extra row sits above the smaller shape boundary
      have hext : ∀ y ∈ rowRange (rowHi c dxn e + 1)
          (rowHi {c with radius := R'} dxn e'),
          (shapeH c.st.shape c.radius dxn : Int) + 1 ≤ y ∧ 1 ≤ y ∧
            y ≤ rndI (dxn : Int) e := by
        intro y hy
        rw [mem_rowRange] at hy
        have hy1 : rowHi c dxn e + 1 ≤ y := hy.1
        have hy2 : y ≤ rowHi {c with radius := R'} dxn e' := hy.2
        have hnc' := not_collapsed_of_phi hdx1 hRR he'0 hee he1 hcolR
        have hy3 : y ≤ rowHiPre c dxn e' := by
          have := rowHi_le_pre (c := {c with radius := R'}) he'0 hnc'
          rw [rowHiPre_radius] at this
          omega
        have hy4 : y ≤ rndI (dxn : Int) e' := le_trans hy3 (by
          have := rowHiPre_le_rnd c dxn e'
          rw [rowHiPre_eq_rnd] at this ⊢
          exact le_trans (le_refl _) (by
            have := rowHiPre_le_rnd c dxn e'
            rw [← rowHiPre_eq_rnd]
            exact this))
        have hy5 : y ≤ rndI (dxn : Int) e :=
          le_trans hy4 (rndI_mono_slope (by positivity) hee)
        have hclip : rowHi c dxn e = (shapeH c.st.shape c.radius dxn : Int) := by
          rw [rowHi_eq_min hdx1 he0]
          rcases min_cases ((shapeH c.st.shape c.radius dxn : Int))
            (rowHiPre c dxn e) with ⟨hm, _⟩ | ⟨hm, hcmp⟩
          · exact hm
          · exfalso
            have hpm : rowHiPre c dxn e' ≤ rowHiPre c dxn e := rowHiPre_mono hdx1 hee he1
            rw [rowHi_eq_min hdx1 he0] at hy1
            omega
        refine ⟨by omega, by omega, hy5⟩
      -- coverage pieces for the continuation
      have hTRsplit : ∀ y ∈ rowRange (rowHi c dxn e + 1)
          (rowHi {c with radius := R'} dxn e'),
          ∀ u ∈ applied (go c n (dxn + 1)
            (scanState c dxn (rowRange (rowLo dxn s) (rowHi c dxn e)) (-1) s).2 e),
          u ∈ applied (go {c with radius := R'} n' (dxn + 1)
            (scanState c dxn (rowRange (rowLo dxn s) (rowHi c dxn e)) (-1) s).2
            (fovSlope ((dxn : Rat) + 1/2) ((y : Rat) - 1/2))) := by
        intro y hy u hu
        obtain ⟨hysh, hy1, hye⟩ := hext y hy
        have heyb := splitSlope_bounds hy1 (show y ≤ (dxn : Int) by
          have := @rnd_le_dx dxn e he1
          omega)
        have heye : fovSlope ((dxn : Rat) + 1/2) ((y : Rat) - 1/2) ≤ e :=
          splitSlope_le_e hdx1 hy1 he0 hye
        refine ih n' hnn' (dxn + 1) (by omega) _ e _ hsb.1 hsb.2 heyb.1 heye he1
          ?_ u hu
        intro col hcol
        have h1 : (shapeH c.st.shape c.radius col : Int) ≤
            (shapeH c.st.shape c.radius dxn : Int) := by
          exact_mod_cast shapeH_anti _ _ (by omega)
        have h2 : y ≤ rndI (col : Int)
            (fovSlope ((dxn : Rat) + 1/2) ((y : Rat) - 1/2)) :=
          rnd_split_ge hy1 (by exact_mod_cast (by omega : dxn + 1 ≤ col))
        calc min ((shapeH c.st.shape c.radius col : Int)) (rndI (col : Int) e)
            ≤ (shapeH c.st.shape c.radius col : Int) := min_le_left _ _
          _ ≤ rndI (col : Int) (fovSlope ((dxn : Rat) + 1/2) ((y : Rat) - 1/2)) := by
              omega
      have hTRtail : ∀ u ∈ applied (go c n (dxn + 1)
            (scanState c dxn (rowRange (rowLo dxn s) (rowHi c dxn e)) (-1) s).2 e),
          u ∈ applied (go {c with radius := R'} n' (dxn + 1)
            (scanState c dxn (rowRange (rowLo dxn s) (rowHi c dxn e)) (-1) s).2 e') :=
        fun u hu => ih n' hnn' (dxn + 1) (by omega) _ e e' hsb.1 hsb.2 he'0 hee he1
          (fun col hcol => hphi col (by omega)) u hu
      have hx := extra_cov {c with radius := R'} dxn e'
        (fun s' e' => go {c with radius := R'} n' (dxn + 1) s' e')
        (fun t' => go {c with radius := R'} n' (dxn + 1) t' e')
        (go c n (dxn + 1)
          (scanState c dxn (rowRange (rowLo dxn s) (rowHi c dxn e)) (-1) s).2 e)
        (scanState c dxn (rowRange (rowLo dxn s) (rowHi c dxn e)) (-1) s).2
        (rowRange (rowHi c dxn e + 1) (rowHi {c with radius := R'} dxn e'))
        hTRsplit hTRtail t htail
      rw [applied_append, List.mem_append] at hx
      rw [hfin0]
      rcases hx with h | h
      · exact Or.inl (Or.inr h)
      · exact Or.inr h

end Fovjs

namespace Fovjs

attribute [local semireducible] Rat.add Rat.mul Rat.sub Rat.inv

/-- C1: Radius monotonicity of circle.  For every settings with a pure,
deterministic opaque predicate, every source point, and radii R <= R', every
tile on which circle with radius R invokes apply also receives apply from
circle with radius R'. -/
theorem c1_radius_monotone (st : Settings) (sx sy : Int) (R R' : Nat)
    (hRR : R ≤ R') (t : Int × Int)
    (ht : t ∈ applied (fovCircle st sx sy R)) :
    t ∈ applied (fovCircle st sx sy R') := by
  rw [fovCircle, fovCircleAux] at ht ⊢
  simp only [fovOctant, applied_append, List.mem_append] at ht ⊢
  have hcov : ∀ (signx signy : Int) (rx : Bool),
      ∀ u ∈ applied (go ⟨st, sx, sy, R, signx, signy, rx⟩ (R + 2) 1 0 1),
        u ∈ applied (go ⟨st, sx, sy, R', signx, signy, rx⟩ (R' + 2) 1 0 1) :=
    fun signx signy rx u hu =>
      go_radius_mono ⟨st, sx, sy, R, signx, signy, rx⟩ R' hRR (R + 2) (R' + 2)
        (by omega) 1 (by norm_num) 0 1 1 (by norm_num) (by norm_num) (by norm_num)
        (by norm_num) (by norm_num) (fun col _ => min_le_right _ _) u hu
  rcases ht with (((((((h|h)|h)|h)|h)|h)|h)|h)
  · exact Or.inl (Or.inl (Or.inl (Or.inl (Or.inl (Or.inl (Or.inl (hcov 1 1 false t h)))))))
  · exact Or.inl (Or.inl (Or.inl (Or.inl (Or.inl (Or.inl (Or.inr (hcov 1 1 true t h)))))))
  · exact Or.inl (Or.inl (Or.inl (Or.inl (Or.inl (Or.inr (hcov 1 (-1) false t h))))))
  · exact Or.inl (Or.inl (Or.inl (Or.inl (Or.inr (hcov 1 (-1) true t h)))))
  · exact Or.inl (Or.inl (Or.inl (Or.inr (hcov (-1) 1 false t h))))
  · exact Or.inl (Or.inl (Or.inr (hcov (-1) 1 true t h)))
  · exact Or.inl (Or.inr (hcov (-1) (-1) false t h))
  · exact Or.inr (hcov (-1) (-1) true t h)

theorem c1_radius_monotone_witness :
    (1, 1) ∈ applied (fovCircle transparentOct 0 0 4) :=
  c1_radius_monotone transparentOct 0 0 2 4 (by norm_num) (1, 1) (by decide)

end Fovjs
